import Mathlib

/-!
Verification development for the household-spending transform
(`boa_transform.py`).  The Python functions are shallowly embedded as
executable Lean functions over `List Char`; regular-expression
substitutions are embedded as single-pass state machines that mirror the
leftmost, non-overlapping, greedy behaviour of `re.sub` for the concrete
patterns used by the program.  Character classes (`\d`, `\w`, `\s`) are
modelled with their ASCII meaning.
-/

namespace HS

/-- Strings are modelled as lists of characters. -/
abbrev Str := List Char

/-- The apostrophe character (written via its code point). -/
def apos : Char := Char.ofNat 39

/-- The tab character. -/
def tabC : Char := Char.ofNat 9

/-- ASCII lowering, the model of `str.lower`. -/
def low (c : Char) : Char :=
  if 65 ≤ c.toNat ∧ c.toNat ≤ 90 then Char.ofNat (c.toNat + 32) else c

/-- `str.lower` on a whole string. -/
def lowerL (s : Str) : Str := s.map low

/-- Whitespace (`\s`), ASCII part: space, tab, LF, VT, FF, CR. -/
def isWsC (c : Char) : Bool :=
  c.toNat = 32 || c.toNat = 9 || c.toNat = 10 || c.toNat = 11 ||
  c.toNat = 12 || c.toNat = 13

/-- Decimal digit (`\d`, ASCII). -/
def isDigitC (c : Char) : Bool := 48 ≤ c.toNat && c.toNat ≤ 57

/-- ASCII letter. -/
def isAlphaC (c : Char) : Bool :=
  (97 ≤ c.toNat && c.toNat ≤ 122) || (65 ≤ c.toNat && c.toNat ≤ 90)

/-- Word character (`\w`, ASCII): letter, digit or underscore. -/
def isWordC (c : Char) : Bool := isAlphaC c || isDigitC c || c.toNat = 95

/-- Characters kept by the vendor-strip class `[^a-z0-9 &.'-]`
(everything else is replaced by a space). -/
def keptC (c : Char) : Bool :=
  (97 ≤ c.toNat && c.toNat ≤ 122) || isDigitC c || c.toNat = 32 ||
  c.toNat = 38 || c.toNat = 46 || c.toNat = 39 || c.toNat = 45

/-! ### `re.sub(r"#\d+", " ", ·)` as a three-state machine -/

/-- States for the `#\d+` scanner: outside any candidate, just saw `#`,
inside the digit run of a match. -/
inductive H1 where
  | norm : H1
  | hash : H1
  | digits : H1
deriving DecidableEq

/-- One-pass scanner for `re.sub(r"#\d+", " ", ·)`. -/
def rx1Go : H1 → Str → Str
  | .norm, [] => []
  | .hash, [] => ['#']
  | .digits, [] => [' ']
  | .norm, c :: cs =>
    if c = '#' then rx1Go .hash cs else c :: rx1Go .norm cs
  | .hash, c :: cs =>
    if isDigitC c then rx1Go .digits cs
    else if c = '#' then '#' :: rx1Go .hash cs
    else '#' :: c :: rx1Go .norm cs
  | .digits, c :: cs =>
    if isDigitC c then rx1Go .digits cs
    else if c = '#' then ' ' :: rx1Go .hash cs
    else ' ' :: c :: rx1Go .norm cs

/-- `re.sub(r"#\d+", " ", s)`: every `#` followed by digits becomes one
space. -/
def rx1 (s : Str) : Str := rx1Go .norm s

/-! ### `re.sub(r"\b\d{3,}\b", " ", ·)` -/

/-- One-pass scanner for `re.sub(r"\b\d{3,}\b", " ", ·)`.
`prevW` records whether the previous character was a word character;
`pending` buffers a digit run that started at a word boundary (only such
a run can match).  A buffered run is flushed when the run ends: it is
replaced by one space iff it has length ≥ 3 and ends at a word boundary
(Python's greedy `\d{3,}` cannot shrink past a following word character,
since that character would still block `\b`). -/
def rx2Go (prevW : Bool) (pending : Str) : Str → Str
  | [] => if 3 ≤ pending.length then [' '] else pending
  | c :: cs =>
    if isDigitC c then
      if pending.isEmpty then
        if prevW then c :: rx2Go true [] cs
        else rx2Go false [c] cs
      else rx2Go prevW (pending ++ [c]) cs
    else
      (if 3 ≤ pending.length ∧ ¬ isWordC c then [' '] else pending) ++
        (c :: rx2Go (isWordC c) [] cs)

/-- `re.sub(r"\b\d{3,}\b", " ", s)`. -/
def rx2 (s : Str) : Str := rx2Go false [] s

/-! ### `re.sub(r"\s{2,}", " ", ·)` -/

/-- States for the whitespace-run scanner: outside a run, holding a
single undecided whitespace character, inside a replaced run. -/
inductive R3 where
  | norm : R3
  | pend (w : Char) : R3
  | run : R3
deriving DecidableEq

/-- One-pass scanner for `re.sub(r"\s{2,}", " ", ·)`: a run of two or
more whitespace characters becomes one space, a lone whitespace
character is kept as is. -/
def rx3Go : R3 → Str → Str
  | .norm, [] => []
  | .pend w, [] => [w]
  | .run, [] => [' ']
  | .norm, c :: cs =>
    if isWsC c then rx3Go (.pend c) cs else c :: rx3Go .norm cs
  | .pend w, c :: cs =>
    if isWsC c then rx3Go .run cs else w :: c :: rx3Go .norm cs
  | .run, c :: cs =>
    if isWsC c then rx3Go .run cs else ' ' :: c :: rx3Go .norm cs

/-- `re.sub(r"\s{2,}", " ", s)`. -/
def rx3 (s : Str) : Str := rx3Go .norm s

/-- `re.sub(r"[^a-z0-9 &.'-]", " ", s)`: character-wise replacement. -/
def rx4 (s : Str) : Str := s.map (fun c => if keptC c then c else ' ')

/-! ### `_normalize_ws`: `re.sub(r"\s+", " ", s).strip()` -/

/-- Accumulating splitter: maximal blocks of characters rejected by `p`
(the accumulator holds the current block reversed); empty blocks are not
produced. -/
def blocksGo (p : Char → Bool) (cur : Str) : Str → List Str
  | [] => if cur.isEmpty then [] else [cur.reverse]
  | c :: cs =>
    if p c then
      (if cur.isEmpty then blocksGo p [] cs else cur.reverse :: blocksGo p [] cs)
    else blocksGo p (c :: cur) cs

/-- The maximal `p`-separated blocks of a string, in order. -/
def blocks (p : Char → Bool) (s : Str) : List Str := blocksGo p [] s

/-- The maximal whitespace-free blocks of a string, in order. -/
def wsWords (s : Str) : List Str := blocks isWsC s

/-- `_normalize_ws`: collapsing every whitespace run to a single space
and stripping is the same as joining the whitespace-free blocks with
single spaces. -/
def nws (s : Str) : Str := List.intercalate [' '] (wsWords s)

/-- `str.strip()`: drop whitespace from both ends. -/
def trimWs (s : Str) : Str :=
  ((s.dropWhile isWsC).reverse.dropWhile isWsC).reverse

/-! ### `_clean_text` -/

/-- `_clean_text`: lowercase, apply the four `_VENDOR_STRIP_REGEXES`
substitutions in order, then `_normalize_ws`. -/
def cleanTextL (s : Str) : Str := nws (rx4 (rx3 (rx2 (rx1 (lowerL s)))))

/-- `_clean_text` on an optional input (`None ↦ ""`). -/
def cleanTextO : Option Str → Str
  | none => []
  | some s => cleanTextL s

/-! ### `normalize_merchant` -/

/-- `_VENDOR_STOPWORDS` (a set: only membership matters). -/
def STOPWORDS : List Str :=
  [("authorization".data), ("auth".data), ("purchase".data), ("pos".data),
   ("debit".data), ("credit".data), ("recurring".data), ("online".data),
   ("banking".data), ("transfer".data), ("zelle".data), ("visa".data),
   ("mastercard".data), ("mc".data), ("card".data), ("payment".data),
   ("payment thank you".data), ("pymt".data), ("apple pay".data),
   ("google pay".data), ("ach".data), ("echeck".data), ("ck".data),
   ("trnsfr".data), ("fee".data), ("adj".data), ("refund".data)]

/-- `MERCHANT_ALIASES`, in declaration (= dict iteration) order. -/
def MERCHANT_ALIASES : List (Str × Str) :=
  [(("the home depot".data), ("Home Depot".data)),
   (("home depot".data), ("Home Depot".data)),
   (("walmart.com".data), ("Walmart".data)),
   (("wal-mart".data), ("Walmart".data)),
   (("amazon marketplace".data), ("Amazon".data)),
   (("amzn mktp".data), ("Amazon".data)),
   (("amzn digital".data), ("Amazon".data)),
   (("starbucks coffee".data), ("Starbucks".data)),
   (("dunkin donuts".data), ("Dunkin".data)),
   (("wholefoods".data), ("Whole Foods".data)),
   (("whole foods market".data), ("Whole Foods".data)),
   (("trader joes".data), ("Trader Joe".data ++ [apos] ++ ("s".data))),
   (("market basket".data), ("Market Basket".data)),
   (("stop & shop".data), ("Stop & Shop".data)),
   (("shell oil".data), ("Shell".data)),
   (("exxonmobil".data), ("Exxon".data)),
   (("geico insurance".data), ("GEICO".data))]

/-- Python's `needle in hay` on strings: substring test. -/
def isSubL (n : Str) : Str → Bool
  | [] => n.isEmpty
  | c :: cs => n.isPrefixOf (c :: cs) || isSubL n cs

/-- Match a literal word at the head of the string; return the rest. -/
def matchLit (w s : Str) : Option Str :=
  if w.isPrefixOf s then some (s.drop w.length) else none

/-- Match `\s+` at the head of the string (greedy); return the rest. -/
def matchWsPlus : Str → Option Str
  | [] => none
  | c :: cs => if isWsC c then some (cs.dropWhile isWsC) else none

/-- `re.sub(r"^(debit|credit)\s+card\s+purchase\s+", "", s)`. -/
def dropCardPre (s : Str) : Str :=
  let m :=
    (match matchLit ("debit".data) s with
     | some r => some r
     | none => matchLit ("credit".data) s).bind fun r =>
    (matchWsPlus r).bind fun r =>
    (matchLit ("card".data) r).bind fun r =>
    (matchWsPlus r).bind fun r =>
    (matchLit ("purchase".data) r).bind fun r =>
    matchWsPlus r
  match m with
  | some rest => rest
  | none => s

/-- `re.sub(r"^(purchase|pos)\s+", "", s)`. -/
def dropPosPre (s : Str) : Str :=
  let m :=
    (match matchLit ("purchase".data) s with
     | some r => some r
     | none => matchLit ("pos".data) s).bind matchWsPlus
  match m with
  | some rest => rest
  | none => s

/-- The branch/location marker words of the alias-key regex. -/
def markers : List Str :=
  [("store".data), ("stn".data), ("st".data), ("unit".data), ("loc".data)]

/-- Word boundary after a consumed literal: end of string or a non-word
character. -/
def bAfter : Str → Bool
  | [] => true
  | c :: _ => !isWordC c

/-- Does one of the marker words match at the head of `l`, followed by a
word boundary? -/
def startsMarker (l : Str) : Bool :=
  markers.any fun m => m.isPrefixOf l && bAfter (l.drop m.length)

/-- `re.sub(r"\b(store|stn|st|unit|loc)\b.*$", "", s)`: truncate at the
first word-bounded marker word. -/
def truncMark (prevW : Bool) : Str → Str
  | [] => []
  | c :: cs =>
    if !prevW && startsMarker (c :: cs) then []
    else c :: truncMark (isWordC c) cs

/-- ASCII upper-casing of a single character. -/
def up (c : Char) : Char :=
  if 97 ≤ c.toNat ∧ c.toNat ≤ 122 then Char.ofNat (c.toNat - 32) else c

/-- `str.title()` (ASCII model): the first letter of every maximal
letter run is upper-cased, the rest lower-cased. -/
def titleGo (prevAlpha : Bool) : Str → Str
  | [] => []
  | c :: cs =>
    (if isAlphaC c then (if prevAlpha then low c else up c) else c) ::
      titleGo (isAlphaC c) cs

/-- Whole-word literal replacement, the model of
`re.sub(rf"\b{patt}\b", repl, s)` for patterns that start and end with a
word character.  Fuel-driven recursion (fuel ≥ length of `s` suffices). -/
def wwRepl (patt repl : Str) : Nat → Bool → Str → Str
  | 0, _, s => s
  | _ + 1, _, [] => []
  | fuel + 1, prevW, c :: cs =>
    if !prevW && patt.isPrefixOf (c :: cs) && bAfter ((c :: cs).drop patt.length)
    then
      repl ++ wwRepl patt repl fuel
        (match repl.reverse with
         | r :: _ => isWordC r
         | [] => prevW)
        ((c :: cs).drop patt.length)
    else c :: wwRepl patt repl fuel (isWordC c) cs

/-- The acronym-restoring pairs: `keep.title()` mapped back to `keep`
for every `keep` in `["GEICO", "IRS", "MBTA", "BP", "AT&T"]`. -/
def ACRONYMS : List (Str × Str) :=
  [(("Geico".data), ("GEICO".data)),
   (("Irs".data), ("IRS".data)),
   (("Mbta".data), ("MBTA".data)),
   (("Bp".data), ("BP".data)),
   (("At&T".data), ("AT&T".data))]

/-- Restore the known acronyms after title-casing. -/
def restoreAcr (name : Str) : Str :=
  ACRONYMS.foldl (fun n pr => wwRepl pr.1 pr.2 (n.length + 1) false n) name

/-- `normalize_merchant`: stopword-filtered tokens, prefix strips, alias
lookup on the truncated alias key, else title case with acronyms
restored. -/
def normalizeMerchant (descClean : Str) : Str :=
  if descClean = [] then []
  else
    let tokens :=
      (blocks (fun c => c = ' ') descClean).filter
        fun t => !(STOPWORDS.contains t)
    let base0 := nws (List.intercalate [' '] tokens)
    let base := dropPosPre (dropCardPre base0)
    let aliasKey := trimWs (truncMark false base)
    match MERCHANT_ALIASES.find? (fun kv => isSubL kv.1 aliasKey) with
    | some kv => kv.2
    | none =>
      if base = [] then [] else restoreAcr (titleGo false base)

/-! ### Canonical taxonomy, aliases and keyword rules -/

/-- `CANON`, the canonical category taxonomy, in declaration order. -/
def CANONL : List Str :=
  [("Income".data), ("Transfers".data), ("Fees".data), ("Taxes".data),
   ("Housing".data), ("Utilities".data), ("Insurance".data),
   ("Healthcare".data), ("Transportation".data), ("Fuel".data),
   ("Groceries".data), ("Dining".data), ("Shopping".data),
   ("Subscriptions".data), ("Entertainment".data), ("Travel".data),
   ("Household".data), ("Gifts/Charity".data), ("Uncategorized".data)]

/-- `ALIASES`, in declaration (= dict iteration) order. -/
def ALIASES : List (Str × Str) :=
  [(("atm fee".data), ("Fees".data)),
   (("service fee".data), ("Fees".data)),
   (("fee".data), ("Fees".data)),
   (("mortgage".data), ("Housing".data)),
   (("rent".data), ("Housing".data)),
   (("hoa".data), ("Housing".data)),
   (("electric".data), ("Utilities".data)),
   (("water".data), ("Utilities".data)),
   (("sewer".data), ("Utilities".data)),
   (("gas bill".data), ("Utilities".data)),
   (("internet".data), ("Utilities".data)),
   (("phone".data), ("Utilities".data)),
   (("insurance".data), ("Insurance".data)),
   (("doctor".data), ("Healthcare".data)),
   (("dental".data), ("Healthcare".data)),
   (("pharmacy".data), ("Healthcare".data)),
   (("medical".data), ("Healthcare".data)),
   (("hospital".data), ("Healthcare".data)),
   (("transportation".data), ("Transportation".data)),
   (("tolls".data), ("Transportation".data)),
   (("parking".data), ("Transportation".data)),
   (("fuel".data), ("Fuel".data)),
   (("gas".data), ("Fuel".data)),
   (("grocery".data), ("Groceries".data)),
   (("groceries".data), ("Groceries".data)),
   (("restaurant".data), ("Dining".data)),
   (("dining".data), ("Dining".data)),
   (("coffee".data), ("Dining".data)),
   (("shopping".data), ("Shopping".data)),
   (("subscription".data), ("Subscriptions".data)),
   (("subscriptions".data), ("Subscriptions".data)),
   (("entertainment".data), ("Entertainment".data)),
   (("travel".data), ("Travel".data)),
   (("airfare".data), ("Travel".data)),
   (("airline".data), ("Travel".data)),
   (("hotel".data), ("Travel".data)),
   (("household".data), ("Household".data)),
   (("gift".data), ("Gifts/Charity".data)),
   (("charity".data), ("Gifts/Charity".data)),
   (("donation".data), ("Gifts/Charity".data)),
   (("tithe".data), ("Gifts/Charity".data)),
   (("transfer".data), ("Transfers".data)),
   (("zelle".data), ("Transfers".data)),
   (("online banking transfer".data), ("Transfers".data)),
   (("salary".data), ("Income".data)),
   (("payroll".data), ("Income".data)),
   (("ssa".data), ("Income".data)),
   (("deposit".data), ("Income".data)),
   (("refund".data), ("Income".data)),
   (("tax".data), ("Taxes".data)),
   (("irs".data), ("Taxes".data))]

/-- `KEYWORD_RULES`, in declaration order. -/
def KEYWORD_RULES : List (List Str × Str) :=
  [([("whole foods".data), ("market basket".data), ("stop & shop".data),
     ("trader joe".data), ("aldi".data),
     ("shaw".data ++ [apos] ++ ("s".data))], ("Groceries".data)),
   ([("mcdonald".data), ("starbucks".data), ("dunkin".data),
     ("chipotle".data), ("pizza".data), ("panera".data), ("cafe".data),
     ("restaurant".data)], ("Dining".data)),
   ([("shell".data), ("exxon".data), ("bp ".data), ("mobil".data),
     ("sunoco".data)], ("Fuel".data)),
   ([("uber".data), ("lyft".data), ("mbta".data), ("amtrak".data)],
    ("Transportation".data)),
   ([("comcast".data), ("verizon".data), ("xfinity".data),
     ("spectrum".data), ("att ".data), ("t-mobile".data)],
    ("Utilities".data)),
   ([("netflix".data), ("hulu".data), ("spotify".data), ("max ".data),
     ("disney+".data)], ("Subscriptions".data)),
   ([("amazon".data), ("walmart".data), ("target".data), ("costco".data),
     ("best buy".data)], ("Shopping".data)),
   ([("marriott".data), ("hilton".data), ("airbnb".data), ("delta".data),
     ("american airlines".data), ("united airlines".data),
     ("jetblue".data)], ("Travel".data)),
   ([("cvs".data), ("walgreens".data), ("rite aid".data)],
    ("Healthcare".data)),
   ([("geico".data), ("progressive".data), ("allstate".data),
     ("state farm".data)], ("Insurance".data)),
   ([("irs".data), ("tax".data)], ("Taxes".data)),
   ([("church".data), ("salvation army".data), ("red cross".data)],
    ("Gifts/Charity".data))]

/-- `_canonicalize`: exact case-insensitive taxonomy match, else alias
lookup on the lowered string, else pass through; empty maps to
`"Uncategorized"`. -/
def canonicalize (cat : Str) : Str :=
  if cat.isEmpty then ("Uncategorized".data)
  else
    match CANONL.find? (fun c => lowerL c == lowerL cat) with
    | some c => c
    | none =>
      match ALIASES.find? (fun kv => kv.1 == lowerL cat) with
      | some kv => kv.2
      | none => cat

/-! ### `coerce_money` -/

/-- Remove every `$` and `,` (the two `str.replace` calls). -/
def stripDollarComma (s : Str) : Str :=
  s.filter fun c => !(c = '$' || c = ',')

/-- Numeric value of a digit string. -/
def natOfDigits (ds : Str) : ℕ :=
  ds.foldl (fun n c => 10 * n + (c.toNat - 48)) 0

/-- The numeric fragment of Python's `float(·)` grammar: optional sign,
digits with optional fraction, optional exponent (the `inf`/`nan` words
and `_` digit separators are irrelevant for money strings and are not
modelled). Returns `none` where `float` raises `ValueError`. -/
def parseFloatQ (l : Str) : Option ℚ :=
  let sg : Int × Str :=
    match l with
    | '+' :: r => (1, r)
    | '-' :: r => (-1, r)
    | _ => (1, l)
  let ip := sg.2.takeWhile isDigitC
  let r₁ := sg.2.dropWhile isDigitC
  let fp : Str × Str :=
    match r₁ with
    | '.' :: r => (r.takeWhile isDigitC, r.dropWhile isDigitC)
    | _ => ([], r₁)
  if ip.isEmpty && fp.1.isEmpty then none
  else
    let num : Int :=
      sg.1 * (natOfDigits ip * 10 ^ fp.1.length + natOfDigits fp.1 : ℕ)
    let den : ℕ := 10 ^ fp.1.length
    match fp.2 with
    | [] => some (mkRat num den)
    | e :: r₃ =>
      if e = 'e' || e = 'E' then
        let esg : Bool × Str :=
          match r₃ with
          | '+' :: r => (false, r)
          | '-' :: r => (true, r)
          | _ => (false, r₃)
        let ed := esg.2.takeWhile isDigitC
        let r₅ := esg.2.dropWhile isDigitC
        if ed.isEmpty || !r₅.isEmpty then none
        else if esg.1 then some (mkRat num (den * 10 ^ natOfDigits ed))
        else some (mkRat (num * 10 ^ natOfDigits ed) den)
      else none

/-- `coerce_money`: `None`/missing ↦ `0.0`; `""` ↦ `0.0`; parenthesised
strings are negated; `$` and `,` are removed; an unparsable remainder
yields the `pd.NA` sentinel, modelled as `none`. -/
def coerceMoney : Option Str → Option ℚ
  | none => some 0
  | some x =>
    let s := trimWs x
    if s.isEmpty then some 0
    else
      let neg := (s.head? == some '(') && (s.getLast? == some ')')
      let s₂ := trimWs (stripDollarComma (if neg then (s.drop 1).dropLast else s))
      match parseFloatQ s₂ with
      | none => none
      | some v => some (if neg then -v else v)

/-! ### Mapping rule store and the category cascade -/

/-- A mapping row as read from a CSV file: (type, pattern, category). -/
abbrev Row := Str × Str × Str

/-- The three ordered rule lists of a loaded mapping.  A regex rule is
modelled by its compiled matcher, an abstract `Str → Bool` (standing for
`re.search` with `re.I`). -/
structure RuleSet where
  exactR : List (Str × Str)
  containsR : List (Str × Str)
  regexR : List ((Str → Bool) × Str)

/-- The categories named by a rule set. -/
def RuleSet.cats (rs : RuleSet) : List Str :=
  rs.exactR.map Prod.snd ++ rs.containsR.map Prod.snd ++
    rs.regexR.map Prod.snd

/-- The exact-rule loop of `_apply_mapping`. -/
def findExact (d : Str) : List (Str × Str) → Option Str
  | [] => none
  | (p, c) :: rest => if d == p then some c else findExact d rest

/-- The contains-rule loop of `_apply_mapping` (`patt and patt in desc`). -/
def findContains (d : Str) : List (Str × Str) → Option Str
  | [] => none
  | (p, c) :: rest =>
    if !p.isEmpty && isSubL p d then some c else findContains d rest

/-- The regex-rule loop of `_apply_mapping` (`rx.search(desc)`). -/
def findRegex (d : Str) : List ((Str → Bool) × Str) → Option Str
  | [] => none
  | (m, c) :: rest => if m d then some c else findRegex d rest

/-- `_apply_mapping`: exact, then contains, then regex; `none` when no
user rule matches. -/
def applyMapping (d : Str) (rs : RuleSet) : Option (Str × Str) :=
  match findExact d rs.exactR with
  | some c => some (c, ("mapping_exact".data))
  | none =>
    match findContains d rs.containsR with
    | some c => some (c, ("mapping_contains".data))
    | none =>
      match findRegex d rs.regexR with
      | some c => some (c, ("mapping_regex".data))
      | none => none

/-- The keyword-group loop of `_fallback_keyword_rules`. -/
def findKeyword (hay : Str) : List (List Str × Str) → Option Str
  | [] => none
  | (ks, c) :: rest =>
    if ks.any (fun k => isSubL k hay) then some c else findKeyword hay rest

/-- The alias-substring loop of `_fallback_keyword_rules`. -/
def findAliasSub (hay : Str) : List (Str × Str) → Option Str
  | [] => none
  | (k, v) :: rest => if isSubL k hay then some v else findAliasSub hay rest

/-- `_fallback_keyword_rules`: keyword groups, then alias substrings. -/
def fallbackKeywordRules (hay : Str) : Option (Str × Str) :=
  match findKeyword hay KEYWORD_RULES with
  | some c => some (c, ("keyword_rule".data))
  | none =>
    match findAliasSub hay ALIASES with
    | some v => some (v, ("alias_rule".data))
    | none => none

/-- Exact alias-key lookup (`raw in ALIASES`). -/
def aliasLookup (k : Str) : Option Str :=
  (ALIASES.find? fun kv => kv.1 == k).map Prod.snd

/-- The per-row categorisation step of `transform` (the loop body over
`df.iterrows()`): user mapping (canonicalised), else keyword/alias
fallback on the haystack, else exact raw-category alias, else
`"Uncategorized"`.  Returns (category, provenance stage). -/
def categorize (descClean rawCat : Str) (rs : RuleSet) : Str × Str :=
  match applyMapping descClean rs with
  | some (c, st) => (canonicalize c, st)
  | none =>
    let hay := trimWs (descClean ++ [' '] ++ cleanTextL rawCat)
    match fallbackKeywordRules hay with
    | some (c, st) => (c, st)
    | none =>
      match aliasLookup (cleanTextL rawCat) with
      | some v => (v, ("alias_raw".data))
      | none => (("Uncategorized".data), ("uncategorized".data))

/-! ### Specification-side cascade (from the spec's wording, §4.4) -/

/-- Spec stage 1: exact match (`mapping_exact`). -/
def stageExact (d : Str) (rs : RuleSet) : Option (Str × Str) :=
  (rs.exactR.find? fun pc => d == pc.1).map
    fun pc => (canonicalize pc.2, ("mapping_exact".data))

/-- Spec stage 2: substring match, first rule in load order
(`mapping_contains`). -/
def stageContains (d : Str) (rs : RuleSet) : Option (Str × Str) :=
  (rs.containsR.find? fun pc => !pc.1.isEmpty && isSubL pc.1 d).map
    fun pc => (canonicalize pc.2, ("mapping_contains".data))

/-- Spec stage 3: regex search, first rule in load order
(`mapping_regex`). -/
def stageRegex (d : Str) (rs : RuleSet) : Option (Str × Str) :=
  (rs.regexR.find? fun rc => rc.1 d).map
    fun rc => (canonicalize rc.2, ("mapping_regex".data))

/-- Spec stage 4: first keyword group with any trigger in the haystack
(`keyword_rule`). -/
def stageKeyword (hay : Str) : Option (Str × Str) :=
  (KEYWORD_RULES.find? fun g => g.1.any fun k => isSubL k hay).map
    fun g => (canonicalize g.2, ("keyword_rule".data))

/-- Spec stage 5: first alias key occurring in the haystack
(`alias_rule`). -/
def stageAliasScan (hay : Str) : Option (Str × Str) :=
  (ALIASES.find? fun kv => isSubL kv.1 hay).map
    fun kv => (canonicalize kv.2, ("alias_rule".data))

/-- Spec stage 6: the normalised raw category is exactly an alias key
(`alias_raw`). -/
def stageAliasRaw (raw : Str) : Option (Str × Str) :=
  (ALIASES.find? fun kv => kv.1 == raw).map
    fun kv => (canonicalize kv.2, ("alias_raw".data))

/-- The resolver as the spec words it: the seven stages in order, first
success wins, default `"Uncategorized"`. -/
def resolveSpec (d raw : Str) (rs : RuleSet) : Str × Str :=
  let hay := trimWs (d ++ [' '] ++ cleanTextL raw)
  (((((stageExact d rs).orElse fun _ => stageContains d rs).orElse
      fun _ => stageRegex d rs).orElse
      fun _ => stageKeyword hay).orElse
      fun _ => (stageAliasScan hay).orElse
      fun _ => stageAliasRaw (cleanTextL raw)).getD
    (("Uncategorized".data), ("uncategorized".data))

/-! ### `_load_mapping` -/

/-- Row normalisation in `_load_mapping` (no empty-type default here). -/
def loadRow (r : Row) : Row :=
  (trimWs (lowerL r.1), cleanTextL r.2.1, canonicalize r.2.2)

/-- `_load_mapping`.  The file argument is `none` when the path is
missing or absent; otherwise it carries whether the required columns
{type, pattern, category} are present, and the rows.  `compile` stands
for `re.compile` (`none` = `re.error`). -/
def loadMapping (file : Option (Bool × List Row))
    (compile : Str → Option (Str → Bool)) : Except String RuleSet :=
  match file with
  | none => .ok ⟨[], [], []⟩
  | some (hasCols, rows) =>
    if hasCols then
      let m := rows.map loadRow
      .ok
        { exactR :=
            (m.filter fun r => r.1 == ("exact".data) && !r.2.1.isEmpty).map
              fun r => (r.2.1, r.2.2)
          containsR :=
            (m.filter fun r => r.1 == ("contains".data) && !r.2.1.isEmpty).map
              fun r => (r.2.1, r.2.2)
          regexR :=
            m.filterMap fun r =>
              if r.1 == ("regex".data) && !r.2.1.isEmpty then
                (compile r.2.1).map fun f => (f, r.2.2)
              else none }
    else .error ("mapping file must have columns: type, pattern, category")

/-! ### `learn_mappings` -/

/-- Type normalisation in `learn_mappings`: lower, strip, empty becomes
`"exact"` (also the effect of a missing type column). -/
def normTypeLearn (t : Str) : Str :=
  let t' := trimWs (lowerL t)
  if t'.isEmpty then ("exact".data) else t'

/-- Row normalisation used for both the learn rows and the loaded base
store in `learn_mappings`. -/
def learnRow (r : Row) : Row :=
  (normTypeLearn r.1, cleanTextL r.2.1, canonicalize r.2.2)

/-- A normalised learn row survives iff its pattern is non-empty and its
category is not `"Uncategorized"`. -/
def survives (r : Row) : Bool :=
  !r.2.1.isEmpty && r.2.2 != ("Uncategorized".data)

/-- The normalised, filtered learn rows. -/
def learnedOf (lrows : List Row) : List Row :=
  (lrows.map learnRow).filter survives

/-- The dictionary key `type + "\t" + pattern`. -/
def keyOf (r : Row) : Str := r.1 ++ [tabC] ++ r.2.1

/-- `dict(zip(keys, cats))`: the category of the LAST row with the given
key, if any. -/
def lookupCat (l : List Row) (k : Str) : Option Str :=
  (l.reverse.find? fun r => keyOf r == k).map fun r => r.2.2

/-- The normalised base store: empty when the mapping file is absent or
lacks the three columns. -/
def baseOf : Option (Bool × List Row) → List Row
  | none => []
  | some (hasCols, rows) => if hasCols then rows.map learnRow else []

/-- The learn rows that are added: those whose key is not yet in the
base store (classification against the fixed `existing` dict). -/
def addsOf (base learned : List Row) : List Row :=
  learned.filter fun r => (lookupCat base (keyOf r)).isNone

/-- Number of learn rows counted as duplicates (same key, same category
case-insensitively). -/
def dupCount (base learned : List Row) : ℕ :=
  learned.countP fun r =>
    match lookupCat base (keyOf r) with
    | some c => lowerL c == lowerL r.2.2
    | none => false

/-- Number of learn rows counted as conflicts (same key, different
category; the existing rule is kept). -/
def confCount (base learned : List Row) : ℕ :=
  learned.countP fun r =>
    match lookupCat base (keyOf r) with
    | some c => !(lowerL c == lowerL r.2.2)
    | none => false

/-- `drop_duplicates(subset=["type", "pattern"], keep="last")`. -/
def dedupLast : List Row → List Row
  | [] => []
  | r :: rs =>
    if rs.any (fun x => keyOf x == keyOf r) then dedupLast rs
    else r :: dedupLast rs

/-- Lexicographic (code-point) order on strings, Python's `<`. -/
def lexLt : Str → Str → Bool
  | [], [] => false
  | [], _ :: _ => true
  | _ :: _, [] => false
  | a :: as_, b :: bs => if a < b then true else if a = b then lexLt as_ bs else false

/-- Row order used by `sort_values(["type", "pattern"])`. -/
def rowLe (r r' : Row) : Bool :=
  lexLt r.1 r'.1 || (r.1 == r'.1 && (lexLt r.2.1 r'.2.1 || r.2.1 == r'.2.1))

/-- Sorted insertion. -/
def insertRow (r : Row) : List Row → List Row
  | [] => [r]
  | x :: xs => if rowLe r x then r :: x :: xs else x :: insertRow r xs

/-- `sort_values(["type", "pattern"])` (keys are unique after
deduplication, so any comparison sort yields this order). -/
def sortRows (l : List Row) : List Row := l.foldr insertRow []

/-- The store that `learn_mappings` persists when it writes: normalised
base plus added rows, deduplicated by key keeping the last occurrence,
sorted by (type, pattern). -/
def mergedStore (base learned : List Row) : List Row :=
  sortRows (dedupLast (base ++ addsOf base learned))

/-- `learn_mappings`.  First component: the returned counters
(added, duplicate, conflicting, total); second: the persisted store
(`none` when nothing is written — absent learn file, missing
pattern/category columns, or no surviving labeled rows). -/
def learnMappings (store : Option (Bool × List Row))
    (learnFile : Option (Bool × List Row)) :
    (ℕ × ℕ × ℕ × ℕ) × Option (List Row) :=
  match learnFile with
  | none => ((0, 0, 0, 0), none)
  | some (hasPC, lrows) =>
    if hasPC then
      let learned := learnedOf lrows
      if learned.isEmpty then ((0, 0, 0, 0), none)
      else
        let base := baseOf store
        let final := mergedStore base learned
        (((addsOf base learned).length, dupCount base learned,
            confCount base learned, final.length), some final)
    else ((0, 0, 0, 0), none)

/-! ### Specification-side normalizer pipelines (from §4.1's wording) -/

/-- Spec wording, step 2 as literally written: REMOVE (delete)
transaction IDs `#<digits>`. -/
def rx1Del : H1 → Str → Str
  | .norm, [] => []
  | .hash, [] => ['#']
  | .digits, [] => []
  | .norm, c :: cs =>
    if c = '#' then rx1Del .hash cs else c :: rx1Del .norm cs
  | .hash, c :: cs =>
    if isDigitC c then rx1Del .digits cs
    else if c = '#' then '#' :: rx1Del .hash cs
    else '#' :: c :: rx1Del .norm cs
  | .digits, c :: cs =>
    if isDigitC c then rx1Del .digits cs
    else if c = '#' then rx1Del .hash cs
    else c :: rx1Del .norm cs

/-- Spec wording, step 3 as literally written: REMOVE (delete) any run
of 3+ consecutive digits, with no word-boundary side condition.
`pending` buffers the current digit run. -/
def del3Go (pending : Str) : Str → Str
  | [] => if 3 ≤ pending.length then [] else pending
  | c :: cs =>
    if isDigitC c then del3Go (pending ++ [c]) cs
    else
      (if 3 ≤ pending.length then [] else pending) ++ c :: del3Go [] cs

/-- The five steps of spec §4.1 exactly as worded: lowercase; remove
`#<digits>`; remove runs of 3+ digits; collapse whitespace runs to a
single space; trim. -/
def specCleanSteps (s : Str) : Str :=
  nws (del3Go [] (rx1Del .norm (lowerL s)))

/-- The amended step list: lowercase; replace `#<digits>` by a space;
replace word-bounded runs of 3+ digits by a space; replace every
character outside `[a-z0-9 &.'-]` by a space; collapse whitespace runs
to a single space; trim.  (The code's intermediate `\s{2,}` collapse is
absorbed by the final collapse step and therefore not listed.) -/
def specCleanStepsFixed (s : Str) : Str :=
  nws (rx4 (rx2 (rx1 (lowerL s))))

/-! ### Lemmas: loops versus `find?`, and canonicalisation facts -/

theorem findExact_eq (d : Str) :
    ∀ l : List (Str × Str),
      findExact d l = (l.find? fun pc => d == pc.1).map Prod.snd := by
  intro l
  induction l with
  | nil => rfl
  | cons hd tl ih =>
    obtain ⟨p, c⟩ := hd
    simp only [findExact, List.find?_cons]
    cases h : (d == p) with
    | true => simp
    | false => simpa using ih

theorem findContains_eq (d : Str) :
    ∀ l : List (Str × Str),
      findContains d l =
        (l.find? fun pc => !pc.1.isEmpty && isSubL pc.1 d).map Prod.snd := by
  intro l
  induction l with
  | nil => rfl
  | cons hd tl ih =>
    obtain ⟨p, c⟩ := hd
    simp only [findContains, List.find?_cons]
    cases h : (!p.isEmpty && isSubL p d) with
    | true => simp
    | false => simpa using ih

theorem findRegex_eq (d : Str) :
    ∀ l : List ((Str → Bool) × Str),
      findRegex d l = (l.find? fun rc => rc.1 d).map Prod.snd := by
  intro l
  induction l with
  | nil => rfl
  | cons hd tl ih =>
    obtain ⟨m, c⟩ := hd
    simp only [findRegex, List.find?_cons]
    cases h : (m d) with
    | true => simp
    | false => simpa using ih

theorem findKeyword_eq (hay : Str) :
    ∀ l : List (List Str × Str),
      findKeyword hay l =
        (l.find? fun g => g.1.any fun k => isSubL k hay).map Prod.snd := by
  intro l
  induction l with
  | nil => rfl
  | cons hd tl ih =>
    obtain ⟨ks, c⟩ := hd
    simp only [findKeyword, List.find?_cons]
    cases h : (ks.any fun k => isSubL k hay) with
    | true => simp
    | false => simpa using ih

theorem findAliasSub_eq (hay : Str) :
    ∀ l : List (Str × Str),
      findAliasSub hay l = (l.find? fun kv => isSubL kv.1 hay).map Prod.snd := by
  intro l
  induction l with
  | nil => rfl
  | cons hd tl ih =>
    obtain ⟨k, v⟩ := hd
    simp only [findAliasSub, List.find?_cons]
    cases h : (isSubL k hay) with
    | true => simp
    | false => simpa using ih

theorem CANONL_ne_nil : ∀ c ∈ CANONL, c ≠ [] := by decide

theorem ALIASES_vals_mem : ∀ kv ∈ ALIASES, kv.2 ∈ CANONL := by decide

theorem KEYWORD_cats_mem : ∀ g ∈ KEYWORD_RULES, g.2 ∈ CANONL := by decide

theorem canonicalize_keyword : ∀ g ∈ KEYWORD_RULES, canonicalize g.2 = g.2 := by
  decide

theorem canonicalize_aliasval : ∀ kv ∈ ALIASES, canonicalize kv.2 = kv.2 := by
  decide

theorem canonicalize_ne_nil (x : Str) : canonicalize x ≠ [] := by
  unfold canonicalize
  by_cases hx : x.isEmpty
  · simp [hx]
  · simp only [hx, Bool.false_eq_true, if_false]
    cases hf : CANONL.find? (fun c => lowerL c == lowerL x) with
    | some c =>
      simpa using CANONL_ne_nil c (List.mem_of_find?_eq_some hf)
    | none =>
      simp only
      cases ha : ALIASES.find? (fun kv => kv.1 == lowerL x) with
      | some kv =>
        simpa using
          CANONL_ne_nil kv.2 (ALIASES_vals_mem kv (List.mem_of_find?_eq_some ha))
      | none =>
        simpa using fun h => hx (by simp [h, List.isEmpty_iff])

theorem canonicalize_mem_or_eq (x : Str) :
    canonicalize x ∈ CANONL ∨ canonicalize x = x := by
  unfold canonicalize
  by_cases hx : x.isEmpty
  · simp only [hx, if_true]
    exact Or.inl (by decide)
  · simp only [hx, Bool.false_eq_true, if_false]
    cases hf : CANONL.find? (fun c => lowerL c == lowerL x) with
    | some c => exact Or.inl (List.mem_of_find?_eq_some hf)
    | none =>
      simp only
      cases ha : ALIASES.find? (fun kv => kv.1 == lowerL x) with
      | some kv =>
        exact Or.inl (ALIASES_vals_mem kv (List.mem_of_find?_eq_some ha))
      | none => exact Or.inr rfl

/-! ### The cascade equivalence -/

theorem categorize_eq_resolveSpec (d raw : Str) (rs : RuleSet) :
    categorize d raw rs = resolveSpec d raw rs := by
  unfold categorize resolveSpec applyMapping fallbackKeywordRules
  simp only [findExact_eq, findContains_eq, findRegex_eq, findKeyword_eq,
    findAliasSub_eq]
  unfold stageExact stageContains stageRegex stageKeyword stageAliasScan
    stageAliasRaw aliasLookup
  cases hE : rs.exactR.find? (fun pc => d == pc.1) with
  | some pc => simp [hE, Option.orElse]
  | none =>
    cases hC : rs.containsR.find? (fun pc => !pc.1.isEmpty && isSubL pc.1 d) with
    | some pc => simp [hE, hC, Option.orElse]
    | none =>
      cases hR : rs.regexR.find? (fun rc => rc.1 d) with
      | some rc => simp [hE, hC, hR, Option.orElse]
      | none =>
        cases hK : KEYWORD_RULES.find?
            (fun g => g.1.any fun k =>
              isSubL k (trimWs (d ++ [' '] ++ cleanTextL raw))) with
        | some g =>
          simp [hE, hC, hR, hK, Option.orElse,
            canonicalize_keyword g (List.mem_of_find?_eq_some hK)]
        | none =>
          cases hA : ALIASES.find?
              (fun kv => isSubL kv.1 (trimWs (d ++ [' '] ++ cleanTextL raw))) with
          | some kv =>
            simp [hE, hC, hR, hK, hA, Option.orElse,
              canonicalize_aliasval kv (List.mem_of_find?_eq_some hA)]
          | none =>
            cases hG : ALIASES.find? (fun kv => kv.1 == cleanTextL raw) with
            | some kv =>
              simp [hE, hC, hR, hK, hA, hG, Option.orElse,
                canonicalize_aliasval kv (List.mem_of_find?_eq_some hG)]
            | none => simp [hE, hC, hR, hK, hA, hG, Option.orElse]

/-! ### Totality and membership facts about the cascade -/

theorem mem_cats_of_findExact {d : Str} {rs : RuleSet} {c : Str}
    (h : findExact d rs.exactR = some c) : c ∈ rs.cats := by
  rw [findExact_eq] at h
  obtain ⟨pc, hfind, hsnd⟩ := Option.map_eq_some'.mp h
  have := List.mem_of_find?_eq_some hfind
  unfold RuleSet.cats
  exact List.mem_append_left _
    (List.mem_append_left _ (hsnd ▸ List.mem_map_of_mem Prod.snd this))

theorem mem_cats_of_findContains {d : Str} {rs : RuleSet} {c : Str}
    (h : findContains d rs.containsR = some c) : c ∈ rs.cats := by
  rw [findContains_eq] at h
  obtain ⟨pc, hfind, hsnd⟩ := Option.map_eq_some'.mp h
  have := List.mem_of_find?_eq_some hfind
  unfold RuleSet.cats
  exact List.mem_append_left _
    (List.mem_append_right _ (hsnd ▸ List.mem_map_of_mem Prod.snd this))

theorem mem_cats_of_findRegex {d : Str} {rs : RuleSet} {c : Str}
    (h : findRegex d rs.regexR = some c) : c ∈ rs.cats := by
  rw [findRegex_eq] at h
  obtain ⟨rc, hfind, hsnd⟩ := Option.map_eq_some'.mp h
  have := List.mem_of_find?_eq_some hfind
  unfold RuleSet.cats
  exact List.mem_append_right _ (hsnd ▸ List.mem_map_of_mem Prod.snd this)

/-- The seven provenance stage tags. -/
def STAGES : List Str :=
  [("mapping_exact".data), ("mapping_contains".data), ("mapping_regex".data),
   ("keyword_rule".data), ("alias_rule".data), ("alias_raw".data),
   ("uncategorized".data)]

theorem categorize_total (d raw : Str) (rs : RuleSet) :
    (categorize d raw rs).1 ≠ [] ∧
    ((categorize d raw rs).1 ∈ CANONL ∨ (categorize d raw rs).1 ∈ rs.cats) ∧
    (categorize d raw rs).2 ∈ STAGES := by
  unfold categorize applyMapping fallbackKeywordRules
  cases hE : findExact d rs.exactR with
  | some c =>
    dsimp only
    refine ⟨canonicalize_ne_nil c, ?_, by simp [STAGES]⟩
    rcases canonicalize_mem_or_eq c with h | h
    · exact Or.inl h
    · rw [h]
      exact Or.inr (mem_cats_of_findExact hE)
  | none =>
  dsimp only
  cases hC : findContains d rs.containsR with
  | some c =>
    dsimp only
    refine ⟨canonicalize_ne_nil c, ?_, by simp [STAGES]⟩
    rcases canonicalize_mem_or_eq c with h | h
    · exact Or.inl h
    · rw [h]
      exact Or.inr (mem_cats_of_findContains hC)
  | none =>
  dsimp only
  cases hR : findRegex d rs.regexR with
  | some c =>
    dsimp only
    refine ⟨canonicalize_ne_nil c, ?_, by simp [STAGES]⟩
    rcases canonicalize_mem_or_eq c with h | h
    · exact Or.inl h
    · rw [h]
      exact Or.inr (mem_cats_of_findRegex hR)
  | none =>
  dsimp only
  cases hK : findKeyword (trimWs (d ++ [' '] ++ cleanTextL raw)) KEYWORD_RULES with
  | some c =>
    dsimp only
    rw [findKeyword_eq] at hK
    obtain ⟨g, hfind, hsnd⟩ := Option.map_eq_some'.mp hK
    have hmem := KEYWORD_cats_mem g (List.mem_of_find?_eq_some hfind)
    refine ⟨?_, Or.inl (hsnd ▸ hmem), by simp [STAGES]⟩
    exact hsnd ▸ CANONL_ne_nil _ hmem
  | none =>
  dsimp only
  cases hA : findAliasSub (trimWs (d ++ [' '] ++ cleanTextL raw)) ALIASES with
  | some v =>
    dsimp only
    rw [findAliasSub_eq] at hA
    obtain ⟨kv, hfind, hsnd⟩ := Option.map_eq_some'.mp hA
    have hmem := ALIASES_vals_mem kv (List.mem_of_find?_eq_some hfind)
    refine ⟨?_, Or.inl (hsnd ▸ hmem), by simp [STAGES]⟩
    exact hsnd ▸ CANONL_ne_nil _ hmem
  | none =>
  dsimp only
  cases hG : aliasLookup (cleanTextL raw) with
  | some v =>
    dsimp only
    unfold aliasLookup at hG
    obtain ⟨kv, hfind, hsnd⟩ := Option.map_eq_some'.mp hG
    have hmem := ALIASES_vals_mem kv (List.mem_of_find?_eq_some hfind)
    refine ⟨?_, Or.inl (hsnd ▸ hmem), by simp [STAGES]⟩
    exact hsnd ▸ CANONL_ne_nil _ hmem
  | none =>
    exact ⟨by decide, Or.inl (by decide), by simp [STAGES]⟩

/-! ### Claim theorems (part 1) -/

/-- C1: evaluating the merchant resolver at the spec's inputs.  The code
returns "Starbucks Store #1234 Boston Ma" for the Starbucks input — not
the "Starbucks" asserted by the spec and by the repository's own test
(`test_normalize_merchant_simple`): the alias lookup asks whether an
alias key is a substring of the alias key derived from the description,
and "starbucks coffee" is not a substring of "starbucks".  The Amazon
input does resolve to "Amazon". -/
theorem claimC1_merchant_eval :
    normalizeMerchant ("starbucks store #1234 boston ma".data) =
        ("Starbucks Store #1234 Boston Ma".data) ∧
      normalizeMerchant ("starbucks store #1234 boston ma".data) ≠
        ("Starbucks".data) ∧
      normalizeMerchant ("amzn mktp us*2h3k seattle wa".data) =
        ("Amazon".data) := by
  refine ⟨by decide, by decide, by decide⟩

/-- C2: the per-row categorisation step of `transform` equals the spec's
seven-stage cascade (exact, contains, regex, keyword, alias substring,
raw-category alias, default), each stage consulted only when all earlier
stages failed and the first rule in load/declaration order winning; in
particular a description matching an exact user rule resolves with stage
`mapping_exact` regardless of any keyword rule. -/
theorem claimC2_cascade_order :
    ∀ (d raw : Str) (rs : RuleSet),
      categorize d raw rs = resolveSpec d raw rs ∧
      ((∃ pc, pc ∈ rs.exactR ∧ (d == pc.1) = true) →
        (categorize d raw rs).2 = ("mapping_exact".data)) := by
  intro d raw rs
  refine ⟨categorize_eq_resolveSpec d raw rs, ?_⟩
  intro hex
  have hsome : (rs.exactR.find? fun pc => d == pc.1).isSome := by
    rw [List.find?_isSome]
    obtain ⟨pc, hmem, hbeq⟩ := hex
    exact ⟨pc, hmem, hbeq⟩
  obtain ⟨pc, hpc⟩ := Option.isSome_iff_exists.mp hsome
  unfold categorize applyMapping
  rw [findExact_eq, hpc]
  simp

/-- C2 witness: a description matching both the exact user rule
("starbucks" → MyCat) and the built-in keyword rule ("starbucks" →
Dining) resolves through the exact rule with stage `mapping_exact`. -/
theorem claimC2_cascade_order_witness :
    (categorize ("starbucks".data) [] ⟨[(("starbucks".data), ("MyCat".data))], [], []⟩).2 =
      ("mapping_exact".data) :=
  (claimC2_cascade_order ("starbucks".data) []
      ⟨[(("starbucks".data), ("MyCat".data))], [], []⟩).2
    ⟨(("starbucks".data), ("MyCat".data)), by decide, by decide⟩

/-- C3: category resolution is total: for every normalized description,
raw category and rule set, the (unique) resulting category is non-empty
and lies in the canonical taxonomy (which includes "Uncategorized") or
among the categories of the loaded rule set, and the (unique) stage tag
is one of the seven provenance stages.  Totality/no-error-path is
inherent: `categorize` is a total function returning exactly one pair. -/
theorem claimC3_total_coverage :
    ∀ (d raw : Str) (rs : RuleSet),
      (categorize d raw rs).1 ≠ [] ∧
      ((categorize d raw rs).1 ∈ CANONL ∨ (categorize d raw rs).1 ∈ rs.cats) ∧
      (categorize d raw rs).2 ∈ STAGES := by
  intro d raw rs
  exact categorize_total d raw rs

/-- C4: the money parser: "$1,234.56" ↦ 1234.56, "(45.10)" ↦ -45.10,
"" ↦ 0.0, "not-a-number" ↦ the NA sentinel, a missing value ↦ 0.0, and
for every string the result is either the sentinel or a value — there is
no error path. -/
theorem claimC4_coerce_money :
    coerceMoney (some ("$1,234.56".data)) = some (1234.56 : ℚ) ∧
    coerceMoney (some ("(45.10)".data)) = some (-45.10 : ℚ) ∧
    coerceMoney (some []) = some 0 ∧
    coerceMoney (some ("not-a-number".data)) = none ∧
    coerceMoney none = some 0 ∧
    ∀ s : Str, coerceMoney (some s) = none ∨ ∃ q : ℚ, coerceMoney (some s) = some q := by
  refine ⟨?_, ?_, by decide, by decide, rfl, ?_⟩
  · rw [show (1234.56 : ℚ) = mkRat 123456 100 by norm_num [Rat.mkRat_eq_div]]
    decide
  · rw [show (-45.10 : ℚ) = mkRat (-4510) 100 by norm_num [Rat.mkRat_eq_div]]
    decide
  · intro s
    cases h : coerceMoney (some s) with
    | none => exact Or.inl rfl
    | some q => exact Or.inr ⟨q, rfl⟩

/-- Auxiliary: the regex list produced by `_load_mapping` has exactly
one entry per regex-typed row whose cleaned pattern is non-empty and
compiles. -/
theorem regex_length_eq (compile : Str → Option (Str → Bool)) :
    ∀ m : List Row,
      (m.filterMap fun r =>
          if r.1 == ("regex".data) && !r.2.1.isEmpty then
            (compile r.2.1).map fun f => (f, r.2.2)
          else none).length =
        m.countP fun r =>
          (r.1 == ("regex".data) && !r.2.1.isEmpty) && (compile r.2.1).isSome := by
  intro m
  induction m with
  | nil => rfl
  | cons r tl ih =>
    simp only [List.filterMap_cons, List.countP_cons]
    by_cases h1 : (r.1 == ("regex".data) && !r.2.1.isEmpty) = true
    · rw [if_pos h1]
      cases hc : compile r.2.1 with
      | some f =>
        dsimp only [Option.map_some', Option.isSome_some]
        rw [List.length_cons, ih, Bool.and_true, h1]
        rw [if_pos rfl]
      | none =>
        dsimp only [Option.map_none', Option.isSome_none]
        rw [ih, Bool.and_false, if_neg (by simp)]
        rfl
    · rw [if_neg h1]
      have h1f : (r.1 == ("regex".data) && !r.2.1.isEmpty) = false :=
        Bool.eq_false_iff.mpr h1
      rw [ih, h1f, Bool.false_and, if_neg (by simp)]
      rfl

/-- C9: mapping-rule loading never aborts on malformed rule content: an
absent mapping file yields the empty rule set (three empty lists); a
present file with the required columns always loads successfully, every
loaded exact/contains pattern is non-empty (empty-pattern rows are
dropped), and the regex list holds exactly the regex rows with a
non-empty pattern whose pattern compiles — rows that fail to compile are
skipped, not fatal. -/
theorem claimC9_load_tolerance :
    ∀ (rows : List Row) (compile : Str → Option (Str → Bool)),
      loadMapping none compile = Except.ok ⟨[], [], []⟩ ∧
      ∃ rs : RuleSet, loadMapping (some (true, rows)) compile = Except.ok rs ∧
        (∀ pc ∈ rs.exactR, ¬pc.1.isEmpty) ∧
        (∀ pc ∈ rs.containsR, ¬pc.1.isEmpty) ∧
        rs.regexR.length = (rows.map loadRow).countP fun r =>
          (r.1 == ("regex".data) && !r.2.1.isEmpty) && (compile r.2.1).isSome := by
  intro rows compile
  refine ⟨rfl, _, rfl, ?_, ?_, regex_length_eq compile (rows.map loadRow)⟩
  · intro pc hpc
    obtain ⟨r, hr, hrr⟩ := List.mem_map.mp hpc
    have hf := List.of_mem_filter hr
    simp only [Bool.and_eq_true] at hf
    rw [← hrr]
    simpa using hf.2
  · intro pc hpc
    obtain ⟨r, hr, hrr⟩ := List.mem_map.mp hpc
    have hf := List.of_mem_filter hr
    simp only [Bool.and_eq_true] at hf
    rw [← hrr]
    simpa using hf.2

/-- Sample rows for the C9 witness: a good exact rule, an empty-pattern
exact row, a regex row that fails to compile, and one that compiles. -/
def c9rows : List Row :=
  [(("exact".data), ("foo".data), ("dining".data)),
   (("exact".data), [], ("Shopping".data)),
   (("regex".data), ("bad".data), ("Y".data)),
   (("regex".data), ("ok".data), ("Z".data))]

/-- Sample compiler for the C9 witness: only the pattern "ok" compiles. -/
def c9compile : Str → Option (Str → Bool) :=
  fun p => if p == ("ok".data) then some (fun _ => false) else none

/-- C9 witness: the load-tolerance theorem applied at a concrete file
with an empty-pattern row and a non-compiling regex row. -/
theorem claimC9_load_tolerance_witness :
    loadMapping none c9compile = Except.ok ⟨[], [], []⟩ ∧
    ∃ rs : RuleSet, loadMapping (some (true, c9rows)) c9compile = Except.ok rs ∧
      rs.regexR.length = 1 := by
  obtain ⟨h1, rs, h2, _, _, h5⟩ := claimC9_load_tolerance c9rows c9compile
  refine ⟨h1, rs, h2, ?_⟩
  rw [h5]
  decide

/-- C10: if the mapping file exists but lacks any of the columns
{type, pattern, category}, `_load_mapping` raises a `ValueError`
(modelled as `Except.error`), aborting the run; a learn-from file with
missing required columns is instead absorbed by `learn_mappings` as a
soft no-op returning (0, 0, 0, 0) and writing nothing. -/
theorem claimC10_column_errors :
    ∀ (rows lrows : List Row) (compile : Str → Option (Str → Bool))
      (store : Option (Bool × List Row)),
      loadMapping (some (false, rows)) compile =
        Except.error ("mapping file must have columns: type, pattern, category") ∧
      learnMappings store (some (false, lrows)) = ((0, 0, 0, 0), none) := by
  intro rows lrows compile store
  exact ⟨rfl, rfl⟩

/-! ### Dictionary lookup toolkit for the Learning Updater -/

theorem lookupCat_cons (a : Row) (l : List Row) (k : Str) :
    lookupCat (a :: l) k =
      match lookupCat l k with
      | some c => some c
      | none => if keyOf a == k then some a.2.2 else none := by
  unfold lookupCat
  rw [List.reverse_cons, List.find?_append]
  cases h : l.reverse.find? (fun r => keyOf r == k) with
  | some r => simp [h, Option.orElse]
  | none =>
    cases hk : (keyOf a == k) with
    | true => simp [h, Option.orElse, List.find?, hk]
    | false => simp [h, Option.orElse, List.find?, hk]

theorem lookupCat_isSome_iff (l : List Row) (k : Str) :
    (lookupCat l k).isSome = true ↔ ∃ x ∈ l, (keyOf x == k) = true := by
  unfold lookupCat
  cases h : l.reverse.find? (fun r => keyOf r == k) with
  | some r =>
    simp only [h, Option.map_some', Option.isSome_some, true_iff]
    exact ⟨r, List.mem_reverse.mp (List.mem_of_find?_eq_some h),
      by simpa using List.find?_some h⟩
  | none =>
    simp only [h, Option.map_none', Option.isSome_none, Bool.false_eq_true,
      false_iff]
    rintro ⟨x, hx, hk⟩
    have := List.find?_eq_none.mp h x (List.mem_reverse.mpr hx)
    exact this hk

theorem lookupCat_eq_none_of_no_key {l : List Row} {k : Str}
    (h : ∀ x ∈ l, (keyOf x == k) = false) : lookupCat l k = none := by
  cases hl : lookupCat l k with
  | none => rfl
  | some c =>
    have : (lookupCat l k).isSome = true := by simp [hl]
    obtain ⟨x, hx, hk⟩ := (lookupCat_isSome_iff l k).mp this
    rw [h x hx] at hk
    cases hk

theorem lookupCat_append_of_no_key_right {l₁ l₂ : List Row} {k : Str}
    (h : ∀ x ∈ l₂, (keyOf x == k) = false) :
    lookupCat (l₁ ++ l₂) k = lookupCat l₁ k := by
  unfold lookupCat
  rw [List.reverse_append, List.find?_append]
  have : l₂.reverse.find? (fun r => keyOf r == k) = none := by
    rw [List.find?_eq_none]
    intro x hx
    rw [h x (List.mem_reverse.mp hx)]
    simp
  rw [this]
  rfl

theorem lookupCat_dedupLast (l : List Row) (k : Str) :
    lookupCat (dedupLast l) k = lookupCat l k := by
  induction l with
  | nil => rfl
  | cons a tl ih =>
    unfold dedupLast
    by_cases ha : (tl.any fun x => keyOf x == keyOf a) = true
    · rw [if_pos ha, ih, lookupCat_cons]
      cases hl : lookupCat tl k with
      | some c => rfl
      | none =>
        cases hk : (keyOf a == k) with
        | false => rfl
        | true =>
          exfalso
          have hka : keyOf a = k := by simpa using hk
          obtain ⟨x, hx, hxk⟩ := List.any_eq_true.mp ha
          have : (lookupCat tl k).isSome = true := by
            refine (lookupCat_isSome_iff tl k).mpr ⟨x, hx, ?_⟩
            rw [← hka]
            exact hxk
          rw [hl] at this
          cases this
    · rw [if_neg ha, lookupCat_cons, lookupCat_cons, ih]

theorem dedupLast_subset {l : List Row} {r : Row} (h : r ∈ dedupLast l) :
    r ∈ l := by
  induction l with
  | nil => cases h
  | cons a tl ih =>
    unfold dedupLast at h
    by_cases ha : (tl.any fun x => keyOf x == keyOf a) = true
    · rw [if_pos ha] at h
      exact List.mem_cons_of_mem a (ih h)
    · rw [if_neg ha] at h
      rcases List.mem_cons.mp h with h | h
      · exact h ▸ List.mem_cons_self a tl
      · exact List.mem_cons_of_mem a (ih h)

theorem dedupLast_keys_nodup (l : List Row) :
    ((dedupLast l).map keyOf).Nodup := by
  induction l with
  | nil => exact List.nodup_nil
  | cons a tl ih =>
    unfold dedupLast
    by_cases ha : (tl.any fun x => keyOf x == keyOf a) = true
    · rw [if_pos ha]
      exact ih
    · rw [if_neg ha]
      rw [List.map_cons, List.nodup_cons]
      refine ⟨?_, ih⟩
      intro hmem
      obtain ⟨r, hr, hkr⟩ := List.mem_map.mp hmem
      have hr' := dedupLast_subset hr
      exact ha (List.any_eq_true.mpr ⟨r, hr', by simp [hkr]⟩)

theorem insertRow_perm (r : Row) (l : List Row) :
    List.Perm (insertRow r l) (r :: l) := by
  induction l with
  | nil => exact List.Perm.refl _
  | cons x xs ih =>
    unfold insertRow
    by_cases h : rowLe r x = true
    · rw [if_pos h]
    · rw [if_neg h]
      exact (List.Perm.cons x ih).trans (List.Perm.swap r x xs)

theorem sortRows_perm (l : List Row) : List.Perm (sortRows l) l := by
  induction l with
  | nil => exact List.Perm.refl _
  | cons a tl ih =>
    show List.Perm (insertRow a (sortRows tl)) (a :: tl)
    exact (insertRow_perm a (sortRows tl)).trans (List.Perm.cons a ih)

theorem lookupCat_eq_of_mem_nodup {l : List Row} {r : Row}
    (hnd : (l.map keyOf).Nodup) (hr : r ∈ l) :
    lookupCat l (keyOf r) = some r.2.2 := by
  induction l with
  | nil => cases hr
  | cons a tl ih =>
    rw [List.map_cons, List.nodup_cons] at hnd
    rw [lookupCat_cons]
    rcases List.mem_cons.mp hr with h | h
    · subst h
      have : lookupCat tl (keyOf r) = none := by
        refine lookupCat_eq_none_of_no_key ?_
        intro x hx
        cases hxk : (keyOf x == keyOf r) with
        | false => rfl
        | true =>
          exfalso
          exact hnd.1 (List.mem_map.mpr ⟨x, hx, by simpa using hxk⟩)
      rw [this]
      simp
    · rw [ih hnd.2 h]

theorem lookupCat_perm_of_nodup {l l' : List Row} (hp : List.Perm l l')
    (hnd : (l.map keyOf).Nodup) (k : Str) :
    lookupCat l k = lookupCat l' k := by
  have hnd' : (l'.map keyOf).Nodup := (hp.map keyOf).nodup_iff.mp hnd
  cases hl : lookupCat l k with
  | some c =>
    have hs : (lookupCat l k).isSome = true := by simp [hl]
    obtain ⟨x, hx, hk⟩ := (lookupCat_isSome_iff l k).mp hs
    have hkx : keyOf x = k := by simpa using hk
    have h1 : lookupCat l (keyOf x) = some x.2.2 := lookupCat_eq_of_mem_nodup hnd hx
    have h2 : lookupCat l' (keyOf x) = some x.2.2 :=
      lookupCat_eq_of_mem_nodup hnd' (hp.mem_iff.mp hx)
    rw [hkx] at h1 h2
    rw [h2, ← h1, hl]
  | none =>
    cases hl' : lookupCat l' k with
    | none => rfl
    | some c =>
      exfalso
      have hs : (lookupCat l' k).isSome = true := by simp [hl']
      obtain ⟨x, hx, hk⟩ := (lookupCat_isSome_iff l' k).mp hs
      have : (lookupCat l k).isSome = true :=
        (lookupCat_isSome_iff l k).mpr ⟨x, hp.mem_iff.mpr hx, hk⟩
      rw [hl] at this
      cases this

theorem lookupCat_mergedStore (base learned : List Row) (k : Str) :
    lookupCat (mergedStore base learned) k =
      lookupCat (base ++ addsOf base learned) k := by
  unfold mergedStore
  rw [lookupCat_perm_of_nodup (sortRows_perm _)
      ((sortRows_perm _).map keyOf |>.nodup_iff.mpr (dedupLast_keys_nodup _)) k]
  exact lookupCat_dedupLast _ k

/-! ### C7: conflict safety of the Learning Updater -/

theorem learnedOf_append (L₁ L₂ : List Row) :
    learnedOf (L₁ ++ L₂) = learnedOf L₁ ++ learnedOf L₂ := by
  unfold learnedOf
  rw [List.map_append, List.filter_append]

theorem learnedOf_middle (L₁ L₂ : List Row) (r : Row)
    (h : survives (learnRow r) = true) :
    learnedOf (L₁ ++ r :: L₂) =
      learnedOf L₁ ++ learnRow r :: learnedOf L₂ := by
  unfold learnedOf
  rw [List.map_append, List.map_cons, List.filter_append, List.filter_cons,
    if_pos h]

theorem addsOf_mem_no_key {base learned : List Row} {x : Row}
    (hx : x ∈ addsOf base learned) :
    lookupCat base (keyOf x) = none := by
  have hxn := List.of_mem_filter hx
  cases hl : lookupCat base (keyOf x) with
  | none => rfl
  | some c =>
    rw [hl] at hxn
    cases hxn

theorem learn_insert_invariants (base L₁ L₂ : List Row) (r : Row) (c₀ : Str)
    (hs : survives (learnRow r) = true)
    (hlook : lookupCat base (keyOf (learnRow r)) = some c₀) :
    addsOf base (learnedOf (L₁ ++ r :: L₂)) =
        addsOf base (learnedOf (L₁ ++ L₂)) ∧
      mergedStore base (learnedOf (L₁ ++ r :: L₂)) =
        mergedStore base (learnedOf (L₁ ++ L₂)) ∧
      lookupCat (mergedStore base (learnedOf (L₁ ++ r :: L₂)))
          (keyOf (learnRow r)) = some c₀ ∧
      confCount base (learnedOf (L₁ ++ r :: L₂)) =
        confCount base (learnedOf (L₁ ++ L₂)) +
          (if lowerL c₀ == lowerL (learnRow r).2.2 then 0 else 1) ∧
      dupCount base (learnedOf (L₁ ++ r :: L₂)) =
        dupCount base (learnedOf (L₁ ++ L₂)) +
          (if lowerL c₀ == lowerL (learnRow r).2.2 then 1 else 0) := by
  have hadds : addsOf base (learnedOf (L₁ ++ r :: L₂)) =
      addsOf base (learnedOf (L₁ ++ L₂)) := by
    unfold addsOf
    rw [learnedOf_middle L₁ L₂ r hs, learnedOf_append]
    simp only [List.filter_append, List.filter_cons]
    rw [hlook]
    simp
  refine ⟨hadds, by unfold mergedStore; rw [hadds], ?_, ?_, ?_⟩
  · rw [lookupCat_mergedStore, hadds]
    rw [lookupCat_append_of_no_key_right ?_]
    · exact hlook
    · intro x hx
      cases hxk : (keyOf x == keyOf (learnRow r)) with
      | false => rfl
      | true =>
        exfalso
        have hkx : keyOf x = keyOf (learnRow r) := by simpa using hxk
        have := addsOf_mem_no_key hx
        rw [hkx, hlook] at this
        cases this
  · unfold confCount
    rw [learnedOf_middle L₁ L₂ r hs, learnedOf_append]
    simp only [List.countP_append, List.countP_cons]
    rw [hlook]
    cases hb : (lowerL c₀ == lowerL (learnRow r).2.2) with
    | true => simp [hb]
    | false => simp [hb, Nat.add_assoc]
  · unfold dupCount
    rw [learnedOf_middle L₁ L₂ r hs, learnedOf_append]
    simp only [List.countP_append, List.countP_cons]
    rw [hlook]
    cases hb : (lowerL c₀ == lowerL (learnRow r).2.2) with
    | true => simp [hb, Nat.add_assoc]
    | false => simp [hb]

/-- C7: for every existing mapping store and every learned row whose
(type, pattern) key is already present in the (normalised) store, the
learn step leaves the persisted store untouched — removing or adding the
row changes nothing in the merged store, and the persisted category for
that key stays the store's own category — and the row is counted as a
conflict when its category differs case-insensitively (the conflict
counter increments by exactly one), or as a duplicate with no change
when it matches case-insensitively. -/
theorem claimC7_conflict_safety :
    ∀ (rows L₁ L₂ : List Row) (r : Row) (c₀ : Str),
      survives (learnRow r) = true →
      lookupCat (rows.map learnRow) (keyOf (learnRow r)) = some c₀ →
      (((lowerL c₀ == lowerL (learnRow r).2.2) = false →
          confCount (rows.map learnRow) (learnedOf (L₁ ++ r :: L₂)) =
            confCount (rows.map learnRow) (learnedOf (L₁ ++ L₂)) + 1 ∧
          dupCount (rows.map learnRow) (learnedOf (L₁ ++ r :: L₂)) =
            dupCount (rows.map learnRow) (learnedOf (L₁ ++ L₂))) ∧
       ((lowerL c₀ == lowerL (learnRow r).2.2) = true →
          dupCount (rows.map learnRow) (learnedOf (L₁ ++ r :: L₂)) =
            dupCount (rows.map learnRow) (learnedOf (L₁ ++ L₂)) + 1 ∧
          confCount (rows.map learnRow) (learnedOf (L₁ ++ r :: L₂)) =
            confCount (rows.map learnRow) (learnedOf (L₁ ++ L₂))) ∧
       mergedStore (rows.map learnRow) (learnedOf (L₁ ++ r :: L₂)) =
         mergedStore (rows.map learnRow) (learnedOf (L₁ ++ L₂)) ∧
       lookupCat (mergedStore (rows.map learnRow) (learnedOf (L₁ ++ r :: L₂)))
           (keyOf (learnRow r)) = some c₀) := by
  intro rows L₁ L₂ r c₀ hs hlook
  obtain ⟨hadds, hmerged, hpers, hconf, hdup⟩ :=
    learn_insert_invariants (rows.map learnRow) L₁ L₂ r c₀ hs hlook
  refine ⟨?_, ?_, hmerged, hpers⟩
  · intro hne
    rw [hne] at hconf hdup
    exact ⟨by simpa using hconf, by simpa using hdup⟩
  · intro heq
    rw [heq] at hconf hdup
    exact ⟨by simpa using hdup, by simpa using hconf⟩

/-- Store row for the C7 witness. -/
def c7row : Row := (("exact".data), ("foo".data), ("dining".data))

/-- Conflicting learned row for the C7 witness (empty type defaults to
"exact"; category Shopping conflicts with the stored Dining). -/
def c7learn : Row := ([], ("foo".data), ("Shopping".data))

/-- C7 witness: learning (foo → Shopping) against a store holding
(foo → Dining) increments the conflict counter and leaves the persisted
category at Dining. -/
theorem claimC7_conflict_safety_witness :
    confCount ([c7row].map learnRow) (learnedOf [c7learn]) =
        confCount ([c7row].map learnRow) (learnedOf []) + 1 ∧
      lookupCat (mergedStore ([c7row].map learnRow) (learnedOf [c7learn]))
          (keyOf (learnRow c7learn)) = some ("Dining".data) := by
  have h := claimC7_conflict_safety [c7row] [] [] c7learn ("Dining".data)
    (by decide) (by decide)
  exact ⟨(h.1 (by decide)).1, h.2.2.2⟩

/-! ### Character-level facts -/

theorem char_toNat_ofNat (n : Nat) (h : n.isValidChar) :
    (Char.ofNat n).toNat = n := by
  unfold Char.ofNat
  rw [dif_pos h]
  unfold Char.ofNatAux Char.toNat
  simp [UInt32.toNat, BitVec.toNat_ofNatLt]

theorem char_eq_iff_toNat (c d : Char) : c = d ↔ c.toNat = d.toNat := by
  constructor
  · intro h
    rw [h]
  · intro h
    exact Char.ext (UInt32.ext h)

theorem toNat_low (c : Char) :
    (low c).toNat =
      if 65 ≤ c.toNat ∧ c.toNat ≤ 90 then c.toNat + 32 else c.toNat := by
  unfold low
  by_cases h : 65 ≤ c.toNat ∧ c.toNat ≤ 90
  · rw [if_pos h, if_pos h]
    exact char_toNat_ofNat _ (Or.inl (by omega))
  · rw [if_neg h, if_neg h]

theorem low_eq_self {c : Char} (h : ¬(65 ≤ c.toNat ∧ c.toNat ≤ 90)) :
    low c = c := by
  unfold low
  rw [if_neg h]

theorem low_low (c : Char) : low (low c) = low c := by
  by_cases h : 65 ≤ c.toNat ∧ c.toNat ≤ 90
  · refine low_eq_self ?_
    rw [toNat_low c, if_pos h]
    omega
  · rw [low_eq_self h]
    exact low_eq_self h

theorem isWsC_low (c : Char) : isWsC (low c) = isWsC c := by
  unfold isWsC
  rw [toNat_low c]
  by_cases h : 65 ≤ c.toNat ∧ c.toNat ≤ 90
  · rw [if_pos h]
    apply Bool.eq_iff_iff.mpr
    simp only [Bool.or_eq_true, decide_eq_true_eq]
    omega
  · rw [if_neg h]

theorem lowerL_lowerL (s : Str) : lowerL (lowerL s) = lowerL s := by
  unfold lowerL
  rw [List.map_map]
  apply List.map_congr_left
  intro c _
  exact low_low c

/-! ### `strip` facts -/

theorem dropWhile_dropWhile (p : Char → Bool) (l : Str) :
    (l.dropWhile p).dropWhile p = l.dropWhile p := by
  induction l with
  | nil => rfl
  | cons c cs ih =>
    by_cases h : p c = true
    · rw [List.dropWhile_cons_of_pos h, ih]
    · rw [List.dropWhile_cons_of_neg h, List.dropWhile_cons_of_neg h]

theorem dropWhile_head_false (p : Char → Bool) :
    ∀ (l : Str) {c : Char} {cs : Str}, l.dropWhile p = c :: cs → p c = false := by
  intro l
  induction l with
  | nil => intro c cs h; cases h
  | cons a tl ih =>
    intro c cs h
    by_cases ha : p a = true
    · rw [List.dropWhile_cons_of_pos ha] at h
      exact ih h
    · rw [List.dropWhile_cons_of_neg ha] at h
      cases h
      exact Bool.eq_false_iff.mpr ha

theorem map_low_dropWhile (l : Str) :
    (l.dropWhile isWsC).map low = (l.map low).dropWhile isWsC := by
  induction l with
  | nil => rfl
  | cons c cs ih =>
    rw [List.map_cons]
    by_cases h : isWsC c = true
    · rw [List.dropWhile_cons_of_pos h,
        List.dropWhile_cons_of_pos (by rw [isWsC_low]; exact h), ih]
    · rw [List.dropWhile_cons_of_neg h,
        List.dropWhile_cons_of_neg (by rw [isWsC_low]; exact h), List.map_cons]

theorem lowerL_trimWs (s : Str) : lowerL (trimWs s) = trimWs (lowerL s) := by
  unfold trimWs lowerL
  rw [List.map_reverse, map_low_dropWhile, List.map_reverse, map_low_dropWhile]

theorem dropWhile_eq_self_of_head {p : Char → Bool} :
    ∀ {l : Str}, (∀ c cs, l = c :: cs → p c = false) → l.dropWhile p = l := by
  intro l h
  cases l with
  | nil => rfl
  | cons c cs => exact List.dropWhile_cons_of_neg (by rw [h c cs rfl]; simp)

theorem getLast?_dropWhile (p : Char → Bool) (l : Str)
    (h : l.dropWhile p ≠ []) : (l.dropWhile p).getLast? = l.getLast? := by
  obtain ⟨pre, hpre⟩ := (List.dropWhile_suffix p (l := l))
  conv_rhs => rw [← hpre]
  exact (List.getLast?_append_of_ne_nil pre h).symm

theorem trimWs_idem (s : Str) : trimWs (trimWs s) = trimWs s := by
  unfold trimWs
  set d := s.dropWhile isWsC with hd
  set w := d.reverse.dropWhile isWsC with hw
  have h1 : w.reverse.dropWhile isWsC = w.reverse := by
    apply dropWhile_eq_self_of_head
    intro c cs hc
    have hwne : w ≠ [] := by
      intro hnil
      rw [hnil] at hc
      cases hc
    have hlast : w.getLast? = d.reverse.getLast? := getLast?_dropWhile _ _ (hw ▸ hwne)
    have hhead : w.reverse.head? = some c := by rw [hc]; rfl
    have hwl : w.getLast? = some c := by
      rw [← List.head?_reverse]
      exact hhead
    have hdh : d.reverse.getLast? = d.head? := by
      rw [List.getLast?_reverse]
    cases hdcase : d with
    | nil =>
      rw [hdcase] at hlast
      simp at hlast
      exact absurd hlast hwne
    | cons a tl =>
      have : d.head? = some a := by rw [hdcase]; rfl
      have ha : isWsC a = false := dropWhile_head_false isWsC s (hd ▸ hdcase)
      have : some c = some a := by
        rw [← hwl, hlast, hdh, this]
      cases this
      exact ha
  rw [h1, List.reverse_reverse, hw, dropWhile_dropWhile]

/-! ### Idempotence of the row normalisations -/

theorem canonicalize_of_mem : ∀ c ∈ CANONL, canonicalize c = c := by decide

theorem canonicalize_idem (x : Str) :
    canonicalize (canonicalize x) = canonicalize x := by
  rcases canonicalize_mem_or_eq x with h | h
  · exact canonicalize_of_mem _ h
  · rw [h]
    exact h

theorem normTypeLearn_idem (t : Str) :
    normTypeLearn (normTypeLearn t) = normTypeLearn t := by
  by_cases h : (trimWs (lowerL t)).isEmpty = true
  · have h1 : normTypeLearn t = ("exact".data) := by
      unfold normTypeLearn
      rw [if_pos h]
    rw [h1]
    decide
  · have h1 : normTypeLearn t = trimWs (lowerL t) := by
      unfold normTypeLearn
      rw [if_neg h]
    rw [h1]
    have key : trimWs (lowerL (trimWs (lowerL t))) = trimWs (lowerL t) := by
      rw [lowerL_trimWs, lowerL_lowerL, trimWs_idem]
    simp only [normTypeLearn]
    rw [key, if_neg h]

theorem learnRow_fixed {x : Row} (ht : normTypeLearn x.1 = x.1)
    (hp : cleanTextL x.2.1 = x.2.1) (hc : canonicalize x.2.2 = x.2.2) :
    learnRow x = x := by
  obtain ⟨t, p, c⟩ := x
  unfold learnRow
  simp only at ht hp hc
  rw [ht, hp, hc]

theorem learnRow_fixed_of_image {y : Row} {lrows : List Row}
    (hy : y ∈ lrows.map learnRow) (hp : cleanTextL y.2.1 = y.2.1) :
    learnRow y = y := by
  obtain ⟨x, _, hx⟩ := List.mem_map.mp hy
  refine learnRow_fixed ?_ hp ?_
  · rw [← hx]
    exact normTypeLearn_idem x.1
  · rw [← hx]
    exact canonicalize_idem x.2.2

/-! ### Further store lemmas for the second learn run -/

theorem dedupLast_eq_self_of_nodup :
    ∀ {l : List Row}, (l.map keyOf).Nodup → dedupLast l = l := by
  intro l
  induction l with
  | nil => intro _; rfl
  | cons a tl ih =>
    intro hnd
    rw [List.map_cons, List.nodup_cons] at hnd
    unfold dedupLast
    have ha : (tl.any fun x => keyOf x == keyOf a) = false := by
      cases hcase : tl.any fun x => keyOf x == keyOf a with
      | false => rfl
      | true =>
        exfalso
        obtain ⟨x, hx, hxk⟩ := List.any_eq_true.mp hcase
        exact hnd.1 (List.mem_map.mpr ⟨x, hx, by simpa using hxk⟩)
    rw [ha]
    simp only [Bool.false_eq_true, if_false]
    rw [ih hnd.2]

theorem lookupCat_spec {l : List Row} {k : Str} {c : Str}
    (h : lookupCat l k = some c) : ∃ x ∈ l, keyOf x = k ∧ x.2.2 = c := by
  unfold lookupCat at h
  obtain ⟨x, hfind, hx2⟩ := Option.map_eq_some'.mp h
  refine ⟨x, List.mem_reverse.mp (List.mem_of_find?_eq_some hfind), ?_, hx2⟩
  have := List.find?_some hfind
  simpa using this

theorem countP_disjoint_or (p q : Row → Bool) :
    ∀ l : List Row, (∀ x ∈ l, ¬(p x = true ∧ q x = true)) →
      l.countP (fun x => p x || q x) = l.countP p + l.countP q := by
  intro l
  induction l with
  | nil => intro _; rfl
  | cons a tl ih =>
    intro hdis
    simp only [List.countP_cons]
    rw [ih fun x hx => hdis x (List.mem_cons_of_mem a hx)]
    have hda := hdis a (List.mem_cons_self a tl)
    cases hp : p a with
    | true =>
      have hq : q a = false := by
        cases hq : q a with
        | false => rfl
        | true => exact absurd ⟨hp, hq⟩ hda
      simp [hp, hq]
      omega
    | false =>
      cases hq : q a with
      | true =>
        simp [hp, hq]
        omega
      | false =>
        simp [hp, hq]

/-! ### C8: second-run behaviour of the Learning Updater -/

theorem mergedStore_fixed (store : Option (Bool × List Row)) (lrows : List Row)
    (hb : ∀ x ∈ baseOf store, learnRow x = x)
    (hl : ∀ x ∈ learnedOf lrows, cleanTextL x.2.1 = x.2.1) :
    (mergedStore (baseOf store) (learnedOf lrows)).map learnRow =
      mergedStore (baseOf store) (learnedOf lrows) := by
  have hmem : ∀ x ∈ mergedStore (baseOf store) (learnedOf lrows),
      learnRow x = x := by
    intro x hx
    have hx' : x ∈ baseOf store ++ addsOf (baseOf store) (learnedOf lrows) :=
      dedupLast_subset ((sortRows_perm _).mem_iff.mp hx)
    rcases List.mem_append.mp hx' with h | h
    · exact hb x h
    · have hxL : x ∈ learnedOf lrows := List.mem_of_mem_filter h
      have hxI : x ∈ lrows.map learnRow := List.mem_of_mem_filter hxL
      exact learnRow_fixed_of_image hxI (hl x hxL)
  simpa using List.map_congr_left hmem

theorem mergedStore_keys_nodup (base learned : List Row) :
    ((mergedStore base learned).map keyOf).Nodup := by
  unfold mergedStore
  exact ((sortRows_perm _).map keyOf).nodup_iff.mpr (dedupLast_keys_nodup _)

/-- C8 (amended): a second learn run on the same labeled input, against
the store persisted by the first run, adds zero rules; every row the
first run added or counted duplicate is now a duplicate, conflicts stay
conflicts, and the persisted rule count is unchanged.  The hypotheses —
the base store rows are fixed by normalisation, the text normaliser is
idempotent on the learned patterns, and no two surviving learned rows
give one key different categories — are exactly what the counterexample
to the unconditional claim violates. -/
theorem claimC8_learning_idempotence :
    ∀ (store : Option (Bool × List Row)) (lrows : List Row),
      (∀ x ∈ baseOf store, learnRow x = x) →
      (∀ x ∈ learnedOf lrows, cleanTextL x.2.1 = x.2.1) →
      (∀ x ∈ learnedOf lrows, ∀ y ∈ learnedOf lrows,
        keyOf x = keyOf y → lowerL x.2.2 = lowerL y.2.2) →
      learnedOf lrows ≠ [] →
      learnMappings store (some (true, lrows)) =
        (((addsOf (baseOf store) (learnedOf lrows)).length,
          dupCount (baseOf store) (learnedOf lrows),
          confCount (baseOf store) (learnedOf lrows),
          (mergedStore (baseOf store) (learnedOf lrows)).length),
         some (mergedStore (baseOf store) (learnedOf lrows))) ∧
      learnMappings (some (true, mergedStore (baseOf store) (learnedOf lrows)))
          (some (true, lrows)) =
        ((0,
          (addsOf (baseOf store) (learnedOf lrows)).length +
            dupCount (baseOf store) (learnedOf lrows),
          confCount (baseOf store) (learnedOf lrows),
          (mergedStore (baseOf store) (learnedOf lrows)).length),
         some (sortRows (mergedStore (baseOf store) (learnedOf lrows)))) ∧
      (sortRows (mergedStore (baseOf store) (learnedOf lrows))).length =
        (mergedStore (baseOf store) (learnedOf lrows)).length := by
  intro store lrows hb hl hc hne
  have hLne : (learnedOf lrows).isEmpty = false := by
    cases hL : learnedOf lrows with
    | nil => exact absurd hL hne
    | cons a tl => rfl
  have run1 : learnMappings store (some (true, lrows)) =
      (((addsOf (baseOf store) (learnedOf lrows)).length,
        dupCount (baseOf store) (learnedOf lrows),
        confCount (baseOf store) (learnedOf lrows),
        (mergedStore (baseOf store) (learnedOf lrows)).length),
       some (mergedStore (baseOf store) (learnedOf lrows))) := by
    show (if (learnedOf lrows).isEmpty = true then (((0, 0, 0, 0) : ℕ × ℕ × ℕ × ℕ), (none : Option (List Row)))
      else (((addsOf (baseOf store) (learnedOf lrows)).length,
             dupCount (baseOf store) (learnedOf lrows),
             confCount (baseOf store) (learnedOf lrows),
             (mergedStore (baseOf store) (learnedOf lrows)).length),
            some (mergedStore (baseOf store) (learnedOf lrows)))) = _
    rw [if_neg (by rw [hLne]; simp)]
  have hSfix := mergedStore_fixed store lrows hb hl
  have hbase2 : baseOf (some (true, mergedStore (baseOf store) (learnedOf lrows))) =
      mergedStore (baseOf store) (learnedOf lrows) := by
    show (mergedStore (baseOf store) (learnedOf lrows)).map learnRow =
      mergedStore (baseOf store) (learnedOf lrows)
    exact hSfix
  have hkeys : ∀ r ∈ learnedOf lrows,
      (lookupCat (mergedStore (baseOf store) (learnedOf lrows)) (keyOf r)).isSome
        = true := by
    intro r hr
    unfold mergedStore
    rw [show lookupCat (sortRows (dedupLast (baseOf store ++
          addsOf (baseOf store) (learnedOf lrows)))) (keyOf r) =
        lookupCat (baseOf store ++ addsOf (baseOf store) (learnedOf lrows))
          (keyOf r) from lookupCat_mergedStore _ _ _]
    apply (lookupCat_isSome_iff _ _).mpr
    cases hlb : lookupCat (baseOf store) (keyOf r) with
    | some c =>
      obtain ⟨x, hx, hxk, _⟩ := lookupCat_spec hlb
      exact ⟨x, List.mem_append_left _ hx, by simp [hxk]⟩
    | none =>
      refine ⟨r, List.mem_append_right _ ?_, by simp⟩
      unfold addsOf
      refine List.mem_filter.mpr ⟨hr, ?_⟩
      rw [hlb]
      rfl
  have hlook2 : ∀ r ∈ learnedOf lrows, ∃ c₂,
      lookupCat (mergedStore (baseOf store) (learnedOf lrows)) (keyOf r) =
          some c₂ ∧
        (lookupCat (baseOf store) (keyOf r) = some c₂ ∨
          (lookupCat (baseOf store) (keyOf r) = none ∧
            lowerL c₂ = lowerL r.2.2)) := by
    intro r hr
    obtain ⟨c₂, hc₂⟩ := Option.isSome_iff_exists.mp (hkeys r hr)
    refine ⟨c₂, hc₂, ?_⟩
    rw [lookupCat_mergedStore] at hc₂
    cases hlb : lookupCat (baseOf store) (keyOf r) with
    | some c₀ =>
      left
      have hnok : ∀ x ∈ addsOf (baseOf store) (learnedOf lrows),
          (keyOf x == keyOf r) = false := by
        intro x hx
        cases hxk : (keyOf x == keyOf r) with
        | false => rfl
        | true =>
          exfalso
          have hkx : keyOf x = keyOf r := by simpa using hxk
          have := addsOf_mem_no_key hx
          rw [hkx, hlb] at this
          cases this
      rw [lookupCat_append_of_no_key_right hnok, hlb] at hc₂
      injection hc₂ with h
      rw [h]
    | none =>
      right
      refine ⟨rfl, ?_⟩
      obtain ⟨x, hx, hxk, hxc⟩ := lookupCat_spec hc₂
      rcases List.mem_append.mp hx with hxb | hxa
      · exfalso
        have : (lookupCat (baseOf store) (keyOf r)).isSome = true :=
          (lookupCat_isSome_iff _ _).mpr ⟨x, hxb, by simp [hxk]⟩
        rw [hlb] at this
        cases this
      · have hxL : x ∈ learnedOf lrows := List.mem_of_mem_filter hxa
        rw [← hxc]
        exact (hc r hr x hxL hxk.symm).symm
  have hadds2 : addsOf (mergedStore (baseOf store) (learnedOf lrows))
      (learnedOf lrows) = [] := by
    unfold addsOf
    rw [List.filter_eq_nil_iff]
    intro r hr
    have := hkeys r hr
    cases ho : lookupCat (mergedStore (baseOf store) (learnedOf lrows)) (keyOf r) with
    | some c => simp [ho]
    | none =>
      rw [ho] at this
      cases this
  have hdup2 : dupCount (mergedStore (baseOf store) (learnedOf lrows))
      (learnedOf lrows) =
      (addsOf (baseOf store) (learnedOf lrows)).length +
        dupCount (baseOf store) (learnedOf lrows) := by
    unfold dupCount
    have hcongr : ∀ r ∈ learnedOf lrows,
        (match lookupCat (mergedStore (baseOf store) (learnedOf lrows)) (keyOf r) with
          | some c => lowerL c == lowerL r.2.2
          | none => false) =
        ((lookupCat (baseOf store) (keyOf r)).isNone ||
          (match lookupCat (baseOf store) (keyOf r) with
            | some c => lowerL c == lowerL r.2.2
            | none => false)) := by
      intro r hr
      obtain ⟨c₂, hc₂, hcase⟩ := hlook2 r hr
      rw [hc₂]
      rcases hcase with h | ⟨h, heq⟩
      · rw [h]
        rfl
      · rw [h]
        simp [heq]
    rw [List.countP_congr fun r hr => by rw [hcongr r hr]]
    rw [countP_disjoint_or _ _ _ ?hdisj]
    case hdisj =>
      intro x hx hand
      obtain ⟨h1, h2⟩ := hand
      cases ho : lookupCat (baseOf store) (keyOf x) with
      | some c =>
        rw [ho] at h1
        cases h1
      | none =>
        rw [ho] at h2
        cases h2
    congr 1
    unfold addsOf
    rw [← List.countP_eq_length_filter]
  have hconf2 : confCount (mergedStore (baseOf store) (learnedOf lrows))
      (learnedOf lrows) = confCount (baseOf store) (learnedOf lrows) := by
    unfold confCount
    apply List.countP_congr
    intro r hr
    obtain ⟨c₂, hc₂, hcase⟩ := hlook2 r hr
    rw [hc₂]
    rcases hcase with h | ⟨h, heq⟩
    · rw [h]
    · rw [h]
      simp [heq]
  have hSnodup := mergedStore_keys_nodup (baseOf store) (learnedOf lrows)
  have hmerged2 : mergedStore (mergedStore (baseOf store) (learnedOf lrows))
      (learnedOf lrows) =
      sortRows (mergedStore (baseOf store) (learnedOf lrows)) := by
    rw [show mergedStore (mergedStore (baseOf store) (learnedOf lrows))
          (learnedOf lrows) =
        sortRows (dedupLast (mergedStore (baseOf store) (learnedOf lrows) ++
          addsOf (mergedStore (baseOf store) (learnedOf lrows))
            (learnedOf lrows))) from rfl]
    rw [hadds2, List.append_nil, dedupLast_eq_self_of_nodup hSnodup]
  have run2 : learnMappings
      (some (true, mergedStore (baseOf store) (learnedOf lrows)))
      (some (true, lrows)) =
      ((0,
        (addsOf (baseOf store) (learnedOf lrows)).length +
          dupCount (baseOf store) (learnedOf lrows),
        confCount (baseOf store) (learnedOf lrows),
        (mergedStore (baseOf store) (learnedOf lrows)).length),
       some (sortRows (mergedStore (baseOf store) (learnedOf lrows)))) := by
    show (if (learnedOf lrows).isEmpty = true then (((0, 0, 0, 0) : ℕ × ℕ × ℕ × ℕ), (none : Option (List Row)))
      else (((addsOf (baseOf
                (some (true, mergedStore (baseOf store) (learnedOf lrows))))
              (learnedOf lrows)).length,
             dupCount (baseOf
                (some (true, mergedStore (baseOf store) (learnedOf lrows))))
              (learnedOf lrows),
             confCount (baseOf
                (some (true, mergedStore (baseOf store) (learnedOf lrows))))
              (learnedOf lrows),
             (mergedStore (baseOf
                (some (true, mergedStore (baseOf store) (learnedOf lrows))))
              (learnedOf lrows)).length),
            some (mergedStore (baseOf
                (some (true, mergedStore (baseOf store) (learnedOf lrows))))
              (learnedOf lrows)))) = _
    rw [if_neg (by rw [hLne]; simp)]
    rw [hbase2, hadds2, hdup2, hconf2, hmerged2]
    have hlen : (sortRows (mergedStore (baseOf store) (learnedOf lrows))).length =
        (mergedStore (baseOf store) (learnedOf lrows)).length :=
      (sortRows_perm _).length_eq
    rw [hlen]
    rfl
  exact ⟨run1, run2, (sortRows_perm _).length_eq⟩

/-- C8 counterexample: learning the pattern "123_456" (cleaned to
"123 456", which a second cleaning collapses to "") persists a rule that
the second run re-reads as a different key, so the second run adds one
rule again and the store grows from one to two rows. -/
theorem claimC8_counterexample :
    (learnMappings none
        (some (true, [(([] : Str), ("123_456".data), ("Dining".data))]))) =
      ((1, 0, 0, 1), some [(("exact".data), ("123 456".data), ("Dining".data))]) ∧
    (learnMappings
        (some (true, [(("exact".data), ("123 456".data), ("Dining".data))]))
        (some (true, [(([] : Str), ("123_456".data), ("Dining".data))]))).1 =
      (1, 0, 0, 2) := by
  exact ⟨by decide, by decide⟩

/-- Learn row for the C8 witness. -/
def c8wrow : Row := (([] : Str), ("foo".data), ("Dining".data))

/-- C8 witness: the amended idempotence theorem applied to a concrete
store-free first run over one well-behaved labeled row. -/
theorem claimC8_witness :
    learnMappings
        (some (true, mergedStore (baseOf (none : Option (Bool × List Row)))
          (learnedOf [c8wrow])))
        (some (true, [c8wrow])) =
      ((0,
        (addsOf (baseOf (none : Option (Bool × List Row)))
            (learnedOf [c8wrow])).length +
          dupCount (baseOf (none : Option (Bool × List Row)))
            (learnedOf [c8wrow]),
        confCount (baseOf (none : Option (Bool × List Row)))
          (learnedOf [c8wrow]),
        (mergedStore (baseOf (none : Option (Bool × List Row)))
            (learnedOf [c8wrow])).length),
       some (sortRows (mergedStore (baseOf (none : Option (Bool × List Row)))
          (learnedOf [c8wrow])))) :=
  (claimC8_learning_idempotence none [c8wrow] (by decide) (by decide)
      (by decide) (by decide)).2.1

/-! ### The `\s{2,}` collapse is absorbed by the final whitespace
normalisation (after the character-class substitution) -/

theorem blocksGo_cons_pos (p : Char → Bool) {c : Char} (hc : p c = true)
    (cur X : Str) :
    blocksGo p cur (c :: X) =
      if cur.isEmpty then blocksGo p [] X
      else cur.reverse :: blocksGo p [] X := by
  rw [show blocksGo p cur (c :: X) =
      (if p c = true then
        (if cur.isEmpty = true then blocksGo p [] X
         else cur.reverse :: blocksGo p [] X)
       else blocksGo p (c :: cur) X) from rfl]
  rw [if_pos hc]

theorem blocksGo_cons_neg (p : Char → Bool) {c : Char} (hc : p c = false)
    (cur X : Str) :
    blocksGo p cur (c :: X) = blocksGo p (c :: cur) X := by
  rw [show blocksGo p cur (c :: X) =
      (if p c = true then
        (if cur.isEmpty = true then blocksGo p [] X
         else cur.reverse :: blocksGo p [] X)
       else blocksGo p (c :: cur) X) from rfl]
  rw [if_neg (by rw [hc]; simp)]

theorem blocksGo_sep_sep (p : Char → Bool) (hp : p ' ' = true)
    (cur X : Str) :
    blocksGo p cur (' ' :: ' ' :: X) = blocksGo p cur (' ' :: X) := by
  rw [blocksGo_cons_pos p hp cur, blocksGo_cons_pos p hp cur,
    blocksGo_cons_pos p hp []]
  simp

theorem rx3Go_blocks (g : Char → Char)
    (hg : ∀ w, isWsC w = true → g w = ' ') :
    ∀ l : Str,
      (∀ cur, blocksGo isWsC cur ((rx3Go .norm l).map g) =
        blocksGo isWsC cur (l.map g)) ∧
      (∀ cur w, isWsC w = true →
        blocksGo isWsC cur ((rx3Go (.pend w) l).map g) =
          blocksGo isWsC cur ((w :: l).map g)) ∧
      (∀ cur, blocksGo isWsC cur ((rx3Go .run l).map g) =
        blocksGo isWsC cur (' ' :: l.map g)) := by
  have hsp : isWsC ' ' = true := by decide
  intro l
  induction l with
  | nil =>
    refine ⟨fun cur => rfl, fun cur w hw => rfl, fun cur => ?_⟩
    show blocksGo isWsC cur [g ' '] = blocksGo isWsC cur [' ']
    rw [hg ' ' hsp]
  | cons c cs ih =>
    obtain ⟨ihP, ihQ, ihR⟩ := ih
    by_cases hc : isWsC c = true
    · refine ⟨fun cur => ?_, fun cur w hw => ?_, fun cur => ?_⟩
      · rw [show rx3Go .norm (c :: cs) = rx3Go (.pend c) cs from by
          simp [rx3Go, hc]]
        exact ihQ cur c hc
      · rw [show rx3Go (.pend w) (c :: cs) = rx3Go .run cs from by
          simp [rx3Go, hc]]
        rw [ihR cur, List.map_cons, List.map_cons, hg w hw, hg c hc]
        exact (blocksGo_sep_sep isWsC hsp cur _).symm
      · rw [show rx3Go .run (c :: cs) = rx3Go .run cs from by
          simp [rx3Go, hc]]
        rw [ihR cur, List.map_cons, hg c hc]
        exact (blocksGo_sep_sep isWsC hsp cur _).symm
    · have hcf : isWsC c = false := Bool.eq_false_iff.mpr hc
      have hstep : ∀ cur',
          blocksGo isWsC cur' (g c :: (rx3Go R3.norm cs).map g) =
            blocksGo isWsC cur' (g c :: cs.map g) := by
        intro cur'
        by_cases hgc : isWsC (g c) = true
        · rw [blocksGo_cons_pos _ hgc, blocksGo_cons_pos _ hgc, ihP []]
        · have h' := Bool.eq_false_iff.mpr hgc
          rw [blocksGo_cons_neg _ h', blocksGo_cons_neg _ h']
          exact ihP (g c :: cur')
      refine ⟨fun cur => ?_, fun cur w hw => ?_, fun cur => ?_⟩
      · rw [show rx3Go .norm (c :: cs) = c :: rx3Go .norm cs from by
          simp [rx3Go, hcf]]
        rw [List.map_cons, List.map_cons]
        exact hstep cur
      · rw [show rx3Go (.pend w) (c :: cs) = w :: c :: rx3Go .norm cs from by
          simp [rx3Go, hcf]]
        rw [List.map_cons, List.map_cons, List.map_cons, List.map_cons,
          hg w hw]
        rw [blocksGo_cons_pos _ hsp cur, blocksGo_cons_pos _ hsp cur,
          hstep []]
      · rw [show rx3Go .run (c :: cs) = ' ' :: c :: rx3Go .norm cs from by
          simp [rx3Go, hcf]]
        rw [List.map_cons, List.map_cons, List.map_cons, hg ' ' hsp]
        rw [blocksGo_cons_pos _ hsp cur, blocksGo_cons_pos _ hsp cur,
          hstep []]

theorem keptC_ws_eq_space {w : Char} (hw : isWsC w = true)
    (hk : keptC w = true) : w = ' ' := by
  apply (char_eq_iff_toNat w ' ').mpr
  show w.toNat = 32
  unfold isWsC at hw
  unfold keptC isDigitC at hk
  simp only [Bool.or_eq_true, Bool.and_eq_true, decide_eq_true_eq] at hw hk
  omega

theorem nws_rx4_rx3 (u : Str) : nws (rx4 (rx3 u)) = nws (rx4 u) := by
  have hg : ∀ w, isWsC w = true →
      (fun c => if keptC c then c else ' ') w = ' ' := by
    intro w hw
    by_cases hk : keptC w = true
    · simp only [if_pos hk]
      exact keptC_ws_eq_space hw hk
    · simp only [if_neg hk]
  unfold nws wsWords blocks rx4 rx3
  exact congrArg (List.intercalate [' ']) ((rx3Go_blocks _ hg u).1 [])

/-! ### C5 groundwork: the cleaned alphabet and identity lemmas -/

theorem keptC_no_underscore {c : Char} (h : keptC c = true) :
    c.toNat ≠ 95 := by
  unfold keptC isDigitC at h
  simp only [Bool.or_eq_true, Bool.and_eq_true, decide_eq_true_eq] at h
  omega

theorem keptC_not_upper {c : Char} (h : keptC c = true) :
    ¬(65 ≤ c.toNat ∧ c.toNat ≤ 90) := by
  unfold keptC isDigitC at h
  simp only [Bool.or_eq_true, Bool.and_eq_true, decide_eq_true_eq] at h
  omega

theorem keptC_ne_hash {c : Char} (h : keptC c = true) : c ≠ '#' := by
  intro hc
  subst hc
  exact absurd h (by decide)

theorem isWsC_not_digit {c : Char} (h : isWsC c = true) :
    isDigitC c = false := by
  refine Bool.eq_false_iff.mpr fun hd => ?_
  unfold isWsC at h
  unfold isDigitC at hd
  simp only [Bool.or_eq_true, Bool.and_eq_true, decide_eq_true_eq] at h hd
  omega

theorem isWsC_not_alpha {c : Char} (h : isWsC c = true) :
    isAlphaC c = false := by
  refine Bool.eq_false_iff.mpr fun hd => ?_
  unfold isWsC at h
  unfold isAlphaC at hd
  simp only [Bool.or_eq_true, Bool.and_eq_true, decide_eq_true_eq] at h hd
  omega

theorem lowerL_id_of_kept :
    ∀ s : Str, (∀ c ∈ s, keptC c = true) → lowerL s = s
  | [], _ => rfl
  | c :: cs, h => by
    show low c :: lowerL cs = c :: cs
    rw [low_eq_self (keptC_not_upper (h c (List.mem_cons_self c cs))),
      lowerL_id_of_kept cs (fun d hd => h d (List.mem_cons_of_mem c hd))]

theorem rx1Go_norm_id :
    ∀ s : Str, (∀ c ∈ s, c ≠ '#') → rx1Go .norm s = s
  | [], _ => rfl
  | c :: cs, h => by
    rw [show rx1Go .norm (c :: cs) =
        (if c = '#' then rx1Go .hash cs else c :: rx1Go .norm cs) from rfl,
      if_neg (h c (List.mem_cons_self c cs)),
      rx1Go_norm_id cs (fun d hd => h d (List.mem_cons_of_mem c hd))]

theorem rx4_id_of_kept :
    ∀ s : Str, (∀ c ∈ s, keptC c = true) → rx4 s = s
  | [], _ => rfl
  | c :: cs, h => by
    show (if keptC c then c else ' ') :: rx4 cs = c :: cs
    rw [if_pos (h c (List.mem_cons_self c cs)),
      rx4_id_of_kept cs (fun d hd => h d (List.mem_cons_of_mem c hd))]

theorem mem_rx2Go (c : Char) : ∀ (u : Str) (prevW : Bool) (pend : Str),
    c ∈ rx2Go prevW pend u → c ∈ pend ∨ c ∈ u ∨ c = ' ' := by
  intro u
  induction u with
  | nil =>
    intro prevW pend h
    rw [show rx2Go prevW pend [] =
        (if 3 ≤ pend.length then [' '] else pend) from rfl] at h
    by_cases h3 : 3 ≤ pend.length
    · rw [if_pos h3] at h
      exact Or.inr (Or.inr (by simpa using h))
    · rw [if_neg h3] at h
      exact Or.inl h
  | cons a cs ih =>
    intro prevW pend h
    rw [show rx2Go prevW pend (a :: cs) =
        (if isDigitC a then
          (if pend.isEmpty then
            (if prevW then a :: rx2Go true [] cs else rx2Go false [a] cs)
           else rx2Go prevW (pend ++ [a]) cs)
         else
          (if 3 ≤ pend.length ∧ ¬ isWordC a then [' '] else pend) ++
            (a :: rx2Go (isWordC a) [] cs)) from rfl] at h
    by_cases hd : isDigitC a = true
    · rw [if_pos hd] at h
      by_cases hpe : pend.isEmpty = true
      · rw [if_pos hpe] at h
        by_cases hw : prevW = true
        · rw [if_pos hw] at h
          rcases List.mem_cons.mp h with hca | hin
          · exact Or.inr (Or.inl (by rw [hca]; exact List.mem_cons_self a cs))
          · rcases ih true [] hin with h0 | h1 | h2
            · exact absurd h0 (List.not_mem_nil c)
            · exact Or.inr (Or.inl (List.mem_cons_of_mem a h1))
            · exact Or.inr (Or.inr h2)
        · rw [if_neg hw] at h
          rcases ih false [a] h with h0 | h1 | h2
          · have hca : c = a := by simpa using h0
            exact Or.inr (Or.inl (by rw [hca]; exact List.mem_cons_self a cs))
          · exact Or.inr (Or.inl (List.mem_cons_of_mem a h1))
          · exact Or.inr (Or.inr h2)
      · rw [if_neg hpe] at h
        rcases ih prevW (pend ++ [a]) h with h0 | h1 | h2
        · rcases List.mem_append.mp h0 with hp | ha
          · exact Or.inl hp
          · have hca : c = a := by simpa using ha
            exact Or.inr (Or.inl (by rw [hca]; exact List.mem_cons_self a cs))
        · exact Or.inr (Or.inl (List.mem_cons_of_mem a h1))
        · exact Or.inr (Or.inr h2)
    · rw [if_neg hd] at h
      rcases List.mem_append.mp h with hfl | hrest
      · by_cases h3 : 3 ≤ pend.length ∧ ¬ isWordC a = true
        · rw [if_pos h3] at hfl
          exact Or.inr (Or.inr (by simpa using hfl))
        · rw [if_neg h3] at hfl
          exact Or.inl hfl
      · rcases List.mem_cons.mp hrest with hca | hin
        · exact Or.inr (Or.inl (by rw [hca]; exact List.mem_cons_self a cs))
        · rcases ih (isWordC a) [] hin with h0 | h1 | h2
          · exact absurd h0 (List.not_mem_nil c)
          · exact Or.inr (Or.inl (List.mem_cons_of_mem a h1))
          · exact Or.inr (Or.inr h2)

theorem mem_blocksGo (p : Char → Bool) (c : Char) :
    ∀ (t cur : Str) (w : Str), w ∈ blocksGo p cur t → c ∈ w →
      c ∈ cur ∨ c ∈ t := by
  intro t
  induction t with
  | nil =>
    intro cur w hw hc
    rw [show blocksGo p cur [] =
        (if cur.isEmpty then ([] : List Str) else [cur.reverse]) from rfl] at hw
    by_cases he : cur.isEmpty = true
    · rw [if_pos he] at hw
      exact absurd hw (List.not_mem_nil w)
    · rw [if_neg he] at hw
      have hwc : w = cur.reverse := by simpa using hw
      rw [hwc] at hc
      exact Or.inl (List.mem_reverse.mp hc)
  | cons a cs ih =>
    intro cur w hw hc
    rw [show blocksGo p cur (a :: cs) =
        (if p a then
          (if cur.isEmpty then blocksGo p [] cs
           else cur.reverse :: blocksGo p [] cs)
         else blocksGo p (a :: cur) cs) from rfl] at hw
    by_cases hp : p a = true
    · rw [if_pos hp] at hw
      by_cases he : cur.isEmpty = true
      · rw [if_pos he] at hw
        rcases ih [] w hw hc with h0 | h1
        · exact absurd h0 (List.not_mem_nil c)
        · exact Or.inr (List.mem_cons_of_mem a h1)
      · rw [if_neg he] at hw
        rcases List.mem_cons.mp hw with hwc | hwin
        · rw [hwc] at hc
          exact Or.inl (List.mem_reverse.mp hc)
        · rcases ih [] w hwin hc with h0 | h1
          · exact absurd h0 (List.not_mem_nil c)
          · exact Or.inr (List.mem_cons_of_mem a h1)
    · rw [if_neg hp] at hw
      rcases ih (a :: cur) w hw hc with h0 | h1
      · rcases List.mem_cons.mp h0 with hca | hcur
        · exact Or.inr (by rw [hca]; exact List.mem_cons_self a cs)
        · exact Or.inl hcur
      · exact Or.inr (List.mem_cons_of_mem a h1)

theorem intercalate_nil_words (sep : Str) :
    List.intercalate sep ([] : List Str) = [] := by
  simp [List.intercalate]

theorem intercalate_single (sep : Str) (w : Str) :
    List.intercalate sep [w] = w := by
  simp [List.intercalate]

theorem intercalate_cons2 (sep : Str) (w v : Str) (ws : List Str) :
    List.intercalate sep (w :: v :: ws) =
      w ++ sep ++ List.intercalate sep (v :: ws) := by
  simp [List.intercalate, List.intersperse]

theorem mem_intercalate_space (c : Char) :
    ∀ ws : List Str, c ∈ List.intercalate [' '] ws →
      (∃ w ∈ ws, c ∈ w) ∨ c = ' ' := by
  intro ws
  induction ws with
  | nil =>
    intro h
    rw [intercalate_nil_words] at h
    exact absurd h (List.not_mem_nil c)
  | cons w ws ih =>
    cases ws with
    | nil =>
      intro h
      rw [intercalate_single] at h
      exact Or.inl ⟨w, List.mem_cons_self w [], h⟩
    | cons v ws2 =>
      intro h
      rw [intercalate_cons2] at h
      rcases List.mem_append.mp h with h1 | h2
      · rcases List.mem_append.mp h1 with ha | hb
        · exact Or.inl ⟨w, List.mem_cons_self w _, ha⟩
        · exact Or.inr (by simpa using hb)
      · rcases ih h2 with ⟨u2, hu2, hcu⟩ | hsp
        · exact Or.inl ⟨u2, List.mem_cons_of_mem w hu2, hcu⟩
        · exact Or.inr hsp

theorem mem_nws {c : Char} {u : Str} (h : c ∈ nws u) : c ∈ u ∨ c = ' ' := by
  rcases mem_intercalate_space c (wsWords u) h with ⟨w, hw, hcw⟩ | hsp
  · rcases mem_blocksGo isWsC c u [] w hw hcw with h0 | h1
    · exact absurd h0 (List.not_mem_nil c)
    · exact Or.inl h1
  · exact Or.inr hsp

theorem cleanTextL_eq_nws_rx2 {s : Str} (hk : ∀ c ∈ s, keptC c = true) :
    cleanTextL s = nws (rx2 s) := by
  have hlo : lowerL s = s := lowerL_id_of_kept s hk
  have hr1 : rx1 s = s := rx1Go_norm_id s (fun c hc => keptC_ne_hash (hk c hc))
  have hk2 : ∀ c ∈ rx2 s, keptC c = true := by
    intro c hc
    rcases mem_rx2Go c s false [] hc with h0 | h1 | h2
    · exact absurd h0 (List.not_mem_nil c)
    · exact hk c h1
    · rw [h2]; decide
  have hr4 : rx4 (rx2 s) = rx2 s := rx4_id_of_kept _ hk2
  show nws (rx4 (rx3 (rx2 (rx1 (lowerL s))))) = nws (rx2 s)
  rw [hlo, hr1, nws_rx4_rx3, hr4]

/-! ### C5: the `\b\d{3,}\b` fixed-point invariant -/

/-- Acceptance scanner for "no word-bounded run of 3 or more digits"
(over strings without underscores): `prevL` records whether the current
digit run is preceded by a letter (its left boundary is then blocked by
`\b`), `len` its length so far.  A run ended by a non-word character or
the end of the string is harmless iff it is shorter than 3 or preceded
by a letter; a run ended by a letter is always harmless. -/
def invGo (prevL : Bool) (len : Nat) : Str → Bool
  | [] => decide (len < 3) || prevL
  | c :: cs =>
    if isDigitC c then invGo prevL (len + 1) cs
    else if isAlphaC c then invGo true 0 cs
    else (decide (len < 3) || prevL) && invGo false 0 cs

theorem invGo_digits :
    ∀ ds : Str, (∀ c ∈ ds, isDigitC c = true) →
      ∀ (pl : Bool) (ln : Nat) (x : Str),
        invGo pl ln (ds ++ x) = invGo pl (ln + ds.length) x
  | [], _ => by
    intro pl ln x
    simp
  | d :: ds, h => by
    intro pl ln x
    have hlen : ln + 1 + ds.length = ln + (d :: ds).length := by
      simp only [List.length_cons]
      omega
    rw [show ((d :: ds) ++ x : Str) = d :: (ds ++ x) from rfl,
      show invGo pl ln (d :: (ds ++ x)) =
        (if isDigitC d then invGo pl (ln + 1) (ds ++ x)
         else if isAlphaC d then invGo true 0 (ds ++ x)
         else (decide (ln < 3) || pl) && invGo false 0 (ds ++ x)) from rfl,
      if_pos (h d (List.mem_cons_self d ds)),
      invGo_digits ds (fun c hc => h c (List.mem_cons_of_mem d hc)) pl
        (ln + 1) x, hlen]

theorem invGo_append_sep {w : Char} (hd : isDigitC w = false)
    (ha : isAlphaC w = false) (b : Str) :
    ∀ (a : Str) (pl : Bool) (ln : Nat),
      invGo pl ln (a ++ w :: b) = (invGo pl ln a && invGo false 0 b)
  | [], pl, ln => by
    rw [show (([] : Str) ++ w :: b) = w :: b from rfl,
      show invGo pl ln (w :: b) =
        (if isDigitC w then invGo pl (ln + 1) b
         else if isAlphaC w then invGo true 0 b
         else (decide (ln < 3) || pl) && invGo false 0 b) from rfl,
      if_neg (Bool.eq_false_iff.mp hd), if_neg (Bool.eq_false_iff.mp ha),
      show invGo pl ln ([] : Str) = (decide (ln < 3) || pl) from rfl]
  | c :: a, pl, ln => by
    rw [show ((c :: a) ++ w :: b : Str) = c :: (a ++ w :: b) from rfl,
      show invGo pl ln (c :: (a ++ w :: b)) =
        (if isDigitC c then invGo pl (ln + 1) (a ++ w :: b)
         else if isAlphaC c then invGo true 0 (a ++ w :: b)
         else (decide (ln < 3) || pl) && invGo false 0 (a ++ w :: b))
        from rfl,
      show invGo pl ln (c :: a) =
        (if isDigitC c then invGo pl (ln + 1) a
         else if isAlphaC c then invGo true 0 a
         else (decide (ln < 3) || pl) && invGo false 0 a) from rfl]
    by_cases h1 : isDigitC c = true
    · rw [if_pos h1, if_pos h1, invGo_append_sep hd ha b a pl (ln + 1)]
    · rw [if_neg h1, if_neg h1]
      by_cases h2 : isAlphaC c = true
      · rw [if_pos h2, if_pos h2, invGo_append_sep hd ha b a true 0]
      · rw [if_neg h2, if_neg h2, invGo_append_sep hd ha b a false 0,
          Bool.and_assoc]

theorem rx2Go_id_of_inv :
    ∀ u : Str, (∀ c ∈ u, c.toNat ≠ 95) →
      ((∀ pend : Str, pend ≠ [] → (∀ c ∈ pend, isDigitC c = true) →
          invGo false pend.length u = true → rx2Go false pend u = pend ++ u) ∧
       (∀ ln : Nat, invGo true ln u = true → rx2Go true [] u = u) ∧
       (invGo false 0 u = true → rx2Go false [] u = u)) := by
  intro u
  induction u with
  | nil =>
    intro _
    refine ⟨?_, ?_, ?_⟩
    · intro pend _ _ hacc
      rw [show rx2Go false pend [] =
          (if 3 ≤ pend.length then [' '] else pend) from rfl]
      rw [show invGo false pend.length ([] : Str) =
          (decide (pend.length < 3) || false) from rfl] at hacc
      simp only [Bool.or_false, decide_eq_true_eq] at hacc
      rw [if_neg (by omega), List.append_nil]
    · intro ln _
      rfl
    · intro _
      rfl
  | cons a cs ih =>
    intro hnu
    have hnu2 : ∀ c ∈ cs, c.toNat ≠ 95 :=
      fun c hc => hnu c (List.mem_cons_of_mem a hc)
    have ha95 : a.toNat ≠ 95 := hnu a (List.mem_cons_self a cs)
    obtain ⟨ihA, ihB, ihC⟩ := ih hnu2
    have hword : isWordC a = (isAlphaC a || isDigitC a) := by
      unfold isWordC
      rw [decide_eq_false ha95, Bool.or_false]
    refine ⟨?_, ?_, ?_⟩
    · intro pend hne hdig hacc
      rw [show rx2Go false pend (a :: cs) =
          (if isDigitC a then
            (if pend.isEmpty then rx2Go false [a] cs
             else rx2Go false (pend ++ [a]) cs)
           else
            (if 3 ≤ pend.length ∧ ¬ isWordC a then [' '] else pend) ++
              (a :: rx2Go (isWordC a) [] cs)) from rfl]
      by_cases hd : isDigitC a = true
      · rw [if_pos hd]
        have hpe : pend.isEmpty = false := by
          cases pend with
          | nil => exact absurd rfl hne
          | cons x xs => rfl
        rw [if_neg (by simp [hpe])]
        have hacc2 : invGo false (pend ++ [a]).length cs = true := by
          rw [show invGo false pend.length (a :: cs) =
              (if isDigitC a then invGo false (pend.length + 1) cs
               else if isAlphaC a then invGo true 0 cs
               else (decide (pend.length < 3) || false) &&
                invGo false 0 cs) from rfl, if_pos hd] at hacc
          simpa [List.length_append] using hacc
        rw [ihA (pend ++ [a]) (by simp)
          (fun c hc => by
            rcases List.mem_append.mp hc with h1 | h2
            · exact hdig c h1
            · rw [show c = a from by simpa using h2]
              exact hd) hacc2]
        simp
      · rw [if_neg hd]
        by_cases hal : isAlphaC a = true
        · have hw : isWordC a = true := by rw [hword, hal]; rfl
          rw [if_neg (fun hcon => hcon.2 hw), hw]
          have hacc2 : invGo true 0 cs = true := by
            rw [show invGo false pend.length (a :: cs) =
                (if isDigitC a then invGo false (pend.length + 1) cs
                 else if isAlphaC a then invGo true 0 cs
                 else (decide (pend.length < 3) || false) &&
                  invGo false 0 cs) from rfl, if_neg hd, if_pos hal] at hacc
            exact hacc
          rw [ihB 0 hacc2]
        · have hdf := Bool.eq_false_iff.mpr hd
          have haf := Bool.eq_false_iff.mpr hal
          have hw : isWordC a = false := by rw [hword, haf, hdf]; rfl
          have hacc2 : ((decide (pend.length < 3) || false) &&
              invGo false 0 cs) = true := by
            rw [show invGo false pend.length (a :: cs) =
                (if isDigitC a then invGo false (pend.length + 1) cs
                 else if isAlphaC a then invGo true 0 cs
                 else (decide (pend.length < 3) || false) &&
                  invGo false 0 cs) from rfl, if_neg hd, if_neg hal] at hacc
            exact hacc
          simp only [Bool.and_eq_true, Bool.or_false,
            decide_eq_true_eq] at hacc2
          rw [if_neg (fun hcon => absurd hcon.1 (by omega)), hw,
            ihC hacc2.2]
    · intro ln hacc
      rw [show rx2Go true [] (a :: cs) =
          (if isDigitC a then a :: rx2Go true [] cs
           else a :: rx2Go (isWordC a) [] cs) from rfl]
      by_cases hd : isDigitC a = true
      · rw [if_pos hd]
        have hacc2 : invGo true (ln + 1) cs = true := by
          rw [show invGo true ln (a :: cs) =
              (if isDigitC a then invGo true (ln + 1) cs
               else if isAlphaC a then invGo true 0 cs
               else (decide (ln < 3) || true) && invGo false 0 cs)
              from rfl, if_pos hd] at hacc
          exact hacc
        rw [ihB (ln + 1) hacc2]
      · rw [if_neg hd]
        by_cases hal : isAlphaC a = true
        · have hw : isWordC a = true := by rw [hword, hal]; rfl
          have hacc2 : invGo true 0 cs = true := by
            rw [show invGo true ln (a :: cs) =
                (if isDigitC a then invGo true (ln + 1) cs
                 else if isAlphaC a then invGo true 0 cs
                 else (decide (ln < 3) || true) && invGo false 0 cs)
                from rfl, if_neg hd, if_pos hal] at hacc
            exact hacc
          rw [hw, ihB 0 hacc2]
        · have hdf := Bool.eq_false_iff.mpr hd
          have haf := Bool.eq_false_iff.mpr hal
          have hw : isWordC a = false := by rw [hword, haf, hdf]; rfl
          have hacc2 : invGo false 0 cs = true := by
            rw [show invGo true ln (a :: cs) =
                (if isDigitC a then invGo true (ln + 1) cs
                 else if isAlphaC a then invGo true 0 cs
                 else (decide (ln < 3) || true) && invGo false 0 cs)
                from rfl, if_neg hd, if_neg hal] at hacc
            simp only [Bool.and_eq_true] at hacc
            exact hacc.2
          rw [hw, ihC hacc2]
    · intro hacc
      rw [show rx2Go false [] (a :: cs) =
          (if isDigitC a then rx2Go false [a] cs
           else a :: rx2Go (isWordC a) [] cs) from rfl]
      by_cases hd : isDigitC a = true
      · rw [if_pos hd]
        have hacc2 : invGo false (1 : Nat) cs = true := by
          rw [show invGo false 0 (a :: cs) =
              (if isDigitC a then invGo false 1 cs
               else if isAlphaC a then invGo true 0 cs
               else (decide ((0 : Nat) < 3) || false) && invGo false 0 cs)
              from rfl, if_pos hd] at hacc
          exact hacc
        rw [ihA [a] (by simp)
          (fun c hc => by
            rw [show c = a from by simpa using hc]
            exact hd) hacc2]
        simp
      · rw [if_neg hd]
        by_cases hal : isAlphaC a = true
        · have hw : isWordC a = true := by rw [hword, hal]; rfl
          have hacc2 : invGo true 0 cs = true := by
            rw [show invGo false 0 (a :: cs) =
                (if isDigitC a then invGo false 1 cs
                 else if isAlphaC a then invGo true 0 cs
                 else (decide ((0 : Nat) < 3) || false) && invGo false 0 cs)
                from rfl, if_neg hd, if_pos hal] at hacc
            exact hacc
          rw [hw, ihB 0 hacc2]
        · have hdf := Bool.eq_false_iff.mpr hd
          have haf := Bool.eq_false_iff.mpr hal
          have hw : isWordC a = false := by rw [hword, haf, hdf]; rfl
          have hacc2 : invGo false 0 cs = true := by
            rw [show invGo false 0 (a :: cs) =
                (if isDigitC a then invGo false 1 cs
                 else if isAlphaC a then invGo true 0 cs
                 else (decide ((0 : Nat) < 3) || false) && invGo false 0 cs)
                from rfl, if_neg hd, if_neg hal] at hacc
            simp only [Bool.and_eq_true] at hacc
            exact hacc.2
          rw [hw, ihC hacc2]

theorem rx2Go_inv :
    ∀ s : Str, (∀ c ∈ s, c.toNat ≠ 95) →
      ((∀ (prevW : Bool) (pend : Str), pend ≠ [] →
          (∀ c ∈ pend, isDigitC c = true) →
          invGo false 0 (rx2Go prevW pend s) = true) ∧
       (∀ ln : Nat, invGo true ln (rx2Go true [] s) = true) ∧
       (invGo false 0 (rx2Go false [] s) = true)) := by
  intro s
  induction s with
  | nil =>
    intro _
    refine ⟨?_, ?_, ?_⟩
    · intro prevW pend _ hdig
      rw [show rx2Go prevW pend [] =
          (if 3 ≤ pend.length then [' '] else pend) from rfl]
      by_cases h3 : 3 ≤ pend.length
      · rw [if_pos h3]
        decide
      · rw [if_neg h3]
        have hsc := invGo_digits pend hdig false 0 []
        rw [List.append_nil] at hsc
        rw [hsc, show invGo false (0 + pend.length) ([] : Str) =
          (decide (0 + pend.length < 3) || false) from rfl]
        simp only [Bool.or_false, decide_eq_true_eq]
        omega
    · intro ln
      rw [show rx2Go true [] ([] : Str) = [] from rfl,
        show invGo true ln ([] : Str) = (decide (ln < 3) || true) from rfl,
        Bool.or_true]
    · rfl
  | cons a cs ih =>
    intro hnu
    have hnu2 : ∀ c ∈ cs, c.toNat ≠ 95 :=
      fun c hc => hnu c (List.mem_cons_of_mem a hc)
    have ha95 : a.toNat ≠ 95 := hnu a (List.mem_cons_self a cs)
    obtain ⟨ihA, ihB, ihC⟩ := ih hnu2
    have hword : isWordC a = (isAlphaC a || isDigitC a) := by
      unfold isWordC
      rw [decide_eq_false ha95, Bool.or_false]
    refine ⟨?_, ?_, ?_⟩
    · intro prevW pend hne hdig
      rw [show rx2Go prevW pend (a :: cs) =
          (if isDigitC a then
            (if pend.isEmpty then
              (if prevW then a :: rx2Go true [] cs else rx2Go false [a] cs)
             else rx2Go prevW (pend ++ [a]) cs)
           else
            (if 3 ≤ pend.length ∧ ¬ isWordC a then [' '] else pend) ++
              (a :: rx2Go (isWordC a) [] cs)) from rfl]
      by_cases hd : isDigitC a = true
      · rw [if_pos hd]
        have hpe : pend.isEmpty = false := by
          cases pend with
          | nil => exact absurd rfl hne
          | cons x xs => rfl
        rw [if_neg (by simp [hpe])]
        exact ihA prevW (pend ++ [a]) (by simp)
          (fun c hc => by
            rcases List.mem_append.mp hc with h1 | h2
            · exact hdig c h1
            · rw [show c = a from by simpa using h2]
              exact hd)
      · rw [if_neg hd]
        have hdf := Bool.eq_false_iff.mpr hd
        by_cases hal : isAlphaC a = true
        · have hw : isWordC a = true := by rw [hword, hal]; rfl
          rw [if_neg (fun hcon => hcon.2 hw), hw,
            invGo_digits pend hdig false 0 (a :: rx2Go true [] cs),
            show invGo false (0 + pend.length) (a :: rx2Go true [] cs) =
              (if isDigitC a then
                invGo false (0 + pend.length + 1) (rx2Go true [] cs)
               else if isAlphaC a then invGo true 0 (rx2Go true [] cs)
               else (decide (0 + pend.length < 3) || false) &&
                invGo false 0 (rx2Go true [] cs)) from rfl,
            if_neg hd, if_pos hal]
          exact ihB 0
        · have haf := Bool.eq_false_iff.mpr hal
          have hw : isWordC a = false := by rw [hword, haf, hdf]; rfl
          by_cases h3 : 3 ≤ pend.length
          · rw [if_pos ⟨h3, Bool.eq_false_iff.mp hw⟩, hw,
              show invGo false 0
                ([' '] ++ a :: rx2Go false [] cs) =
                invGo false 0 (a :: rx2Go false [] cs) from rfl,
              show invGo false 0 (a :: rx2Go false [] cs) =
                (if isDigitC a then invGo false 1 (rx2Go false [] cs)
                 else if isAlphaC a then invGo true 0 (rx2Go false [] cs)
                 else (decide ((0 : Nat) < 3) || false) &&
                  invGo false 0 (rx2Go false [] cs)) from rfl,
              if_neg hd, if_neg hal, ihC]
            decide
          · rw [if_neg (fun hcon => h3 hcon.1), hw,
              invGo_digits pend hdig false 0 (a :: rx2Go false [] cs),
              show invGo false (0 + pend.length) (a :: rx2Go false [] cs) =
                (if isDigitC a then
                  invGo false (0 + pend.length + 1) (rx2Go false [] cs)
                 else if isAlphaC a then invGo true 0 (rx2Go false [] cs)
                 else (decide (0 + pend.length < 3) || false) &&
                  invGo false 0 (rx2Go false [] cs)) from rfl,
              if_neg hd, if_neg hal, ihC]
            simp only [Bool.and_true, Bool.or_false, decide_eq_true_eq]
            omega
    · intro ln
      rw [show rx2Go true [] (a :: cs) =
          (if isDigitC a then a :: rx2Go true [] cs
           else a :: rx2Go (isWordC a) [] cs) from rfl]
      by_cases hd : isDigitC a = true
      · rw [if_pos hd,
          show invGo true ln (a :: rx2Go true [] cs) =
            (if isDigitC a then invGo true (ln + 1) (rx2Go true [] cs)
             else if isAlphaC a then invGo true 0 (rx2Go true [] cs)
             else (decide (ln < 3) || true) &&
              invGo false 0 (rx2Go true [] cs)) from rfl, if_pos hd]
        exact ihB (ln + 1)
      · rw [if_neg hd]
        by_cases hal : isAlphaC a = true
        · have hw : isWordC a = true := by rw [hword, hal]; rfl
          rw [hw,
            show invGo true ln (a :: rx2Go true [] cs) =
              (if isDigitC a then invGo true (ln + 1) (rx2Go true [] cs)
               else if isAlphaC a then invGo true 0 (rx2Go true [] cs)
               else (decide (ln < 3) || true) &&
                invGo false 0 (rx2Go true [] cs)) from rfl,
            if_neg hd, if_pos hal]
          exact ihB 0
        · have hdf := Bool.eq_false_iff.mpr hd
          have haf := Bool.eq_false_iff.mpr hal
          have hw : isWordC a = false := by rw [hword, haf, hdf]; rfl
          rw [hw,
            show invGo true ln (a :: rx2Go false [] cs) =
              (if isDigitC a then invGo true (ln + 1) (rx2Go false [] cs)
               else if isAlphaC a then invGo true 0 (rx2Go false [] cs)
               else (decide (ln < 3) || true) &&
                invGo false 0 (rx2Go false [] cs)) from rfl,
            if_neg hd, if_neg hal, ihC]
          simp
    · rw [show rx2Go false [] (a :: cs) =
          (if isDigitC a then rx2Go false [a] cs
           else a :: rx2Go (isWordC a) [] cs) from rfl]
      by_cases hd : isDigitC a = true
      · rw [if_pos hd]
        exact ihA false [a] (by simp)
          (fun c hc => by
            rw [show c = a from by simpa using hc]
            exact hd)
      · rw [if_neg hd]
        by_cases hal : isAlphaC a = true
        · have hw : isWordC a = true := by rw [hword, hal]; rfl
          rw [hw,
            show invGo false 0 (a :: rx2Go true [] cs) =
              (if isDigitC a then invGo false 1 (rx2Go true [] cs)
               else if isAlphaC a then invGo true 0 (rx2Go true [] cs)
               else (decide ((0 : Nat) < 3) || false) &&
                invGo false 0 (rx2Go true [] cs)) from rfl,
            if_neg hd, if_pos hal]
          exact ihB 0
        · have hdf := Bool.eq_false_iff.mpr hd
          have haf := Bool.eq_false_iff.mpr hal
          have hw : isWordC a = false := by rw [hword, haf, hdf]; rfl
          rw [hw,
            show invGo false 0 (a :: rx2Go false [] cs) =
              (if isDigitC a then invGo false 1 (rx2Go false [] cs)
               else if isAlphaC a then invGo true 0 (rx2Go false [] cs)
               else (decide ((0 : Nat) < 3) || false) &&
                invGo false 0 (rx2Go false [] cs)) from rfl,
            if_neg hd, if_neg hal, ihC]
          decide

/-! ### C5: the invariant survives whitespace normalisation -/

theorem eq_nil_of_rev_nil {l : Str} (h : l.reverse = []) : l = [] := by
  have h2 := congrArg List.reverse h
  simpa using h2

theorem isEmpty_false_of_ne {l : Str} (h : l ≠ []) : l.isEmpty = false := by
  cases l with
  | nil => exact absurd rfl h
  | cons a as => rfl

theorem invGo_blocksGo :
    ∀ t cur : Str, invGo false 0 (cur.reverse ++ t) = true →
      ∀ w ∈ blocksGo isWsC cur t, invGo false 0 w = true := by
  intro t
  induction t with
  | nil =>
    intro cur hacc w hw
    rw [show blocksGo isWsC cur [] =
        (if cur.isEmpty then ([] : List Str) else [cur.reverse])
        from rfl] at hw
    by_cases he : cur.isEmpty = true
    · rw [if_pos he] at hw
      exact absurd hw (List.not_mem_nil w)
    · rw [if_neg he] at hw
      rw [show w = cur.reverse from by simpa using hw]
      rw [List.append_nil] at hacc
      exact hacc
  | cons a cs ih =>
    intro cur hacc w hw
    rw [show blocksGo isWsC cur (a :: cs) =
        (if isWsC a then
          (if cur.isEmpty then blocksGo isWsC [] cs
           else cur.reverse :: blocksGo isWsC [] cs)
         else blocksGo isWsC (a :: cur) cs) from rfl] at hw
    by_cases hp : isWsC a = true
    · rw [if_pos hp] at hw
      rw [invGo_append_sep (isWsC_not_digit hp) (isWsC_not_alpha hp) cs
        cur.reverse false 0] at hacc
      simp only [Bool.and_eq_true] at hacc
      by_cases he : cur.isEmpty = true
      · rw [if_pos he] at hw
        exact ih [] (by simpa using hacc.2) w hw
      · rw [if_neg he] at hw
        rcases List.mem_cons.mp hw with hwc | hwin
        · rw [hwc]
          exact hacc.1
        · exact ih [] (by simpa using hacc.2) w hwin
    · rw [if_neg hp] at hw
      refine ih (a :: cur) ?_ w hw
      rw [show ((a :: cur).reverse ++ cs : Str) = cur.reverse ++ a :: cs
        from by simp]
      exact hacc

theorem invGo_intercalate :
    ∀ ws : List Str, (∀ w ∈ ws, invGo false 0 w = true) →
      invGo false 0 (List.intercalate [' '] ws) = true := by
  intro ws
  induction ws with
  | nil =>
    intro _
    rw [intercalate_nil_words]
    decide
  | cons w ws ih =>
    cases ws with
    | nil =>
      intro h
      rw [intercalate_single]
      exact h w (List.mem_cons_self w [])
    | cons v ws2 =>
      intro h
      rw [intercalate_cons2,
        show (w ++ [' '] ++ List.intercalate [' '] (v :: ws2) : Str) =
          w ++ ' ' :: List.intercalate [' '] (v :: ws2) from by simp,
        invGo_append_sep (by decide) (by decide)
          (List.intercalate [' '] (v :: ws2)) w false 0,
        h w (List.mem_cons_self w _),
        ih (fun u hu => h u (List.mem_cons_of_mem w hu))]
      rfl

theorem invGo_nws {t : Str} (h : invGo false 0 t = true) :
    invGo false 0 (nws t) = true := by
  refine invGo_intercalate (wsWords t) ?_
  intro w hw
  exact invGo_blocksGo t [] (by simpa using h) w hw

/-! ### C5: `_normalize_ws` is idempotent -/

theorem blocksGo_append_free (p : Char → Bool) :
    ∀ w cur rest : Str, (∀ c ∈ w, p c = false) →
      blocksGo p cur (w ++ rest) = blocksGo p (w.reverse ++ cur) rest
  | [], cur, rest, _ => by simp
  | c :: w, cur, rest, h => by
    rw [show ((c :: w) ++ rest : Str) = c :: (w ++ rest) from rfl,
      blocksGo_cons_neg p (h c (List.mem_cons_self c w)) cur (w ++ rest),
      blocksGo_append_free p w (c :: cur) rest
        (fun d hd => h d (List.mem_cons_of_mem c hd))]
    congr 1
    simp

theorem blocksGo_words_free (p : Char → Bool) :
    ∀ t cur : Str, (∀ c ∈ cur, p c = false) →
      ∀ w ∈ blocksGo p cur t, w ≠ [] ∧ ∀ c ∈ w, p c = false := by
  intro t
  induction t with
  | nil =>
    intro cur hcur w hw
    rw [show blocksGo p cur [] =
        (if cur.isEmpty then ([] : List Str) else [cur.reverse])
        from rfl] at hw
    by_cases he : cur.isEmpty = true
    · rw [if_pos he] at hw
      exact absurd hw (List.not_mem_nil w)
    · rw [if_neg he] at hw
      rw [show w = cur.reverse from by simpa using hw]
      refine ⟨fun hnil => he (by rw [eq_nil_of_rev_nil hnil]; rfl), ?_⟩
      intro c hc
      exact hcur c (List.mem_reverse.mp hc)
  | cons a cs ih =>
    intro cur hcur w hw
    rw [show blocksGo p cur (a :: cs) =
        (if p a then
          (if cur.isEmpty then blocksGo p [] cs
           else cur.reverse :: blocksGo p [] cs)
         else blocksGo p (a :: cur) cs) from rfl] at hw
    by_cases hp : p a = true
    · rw [if_pos hp] at hw
      by_cases he : cur.isEmpty = true
      · rw [if_pos he] at hw
        exact ih [] (fun c hc => absurd hc (List.not_mem_nil c)) w hw
      · rw [if_neg he] at hw
        rcases List.mem_cons.mp hw with hwc | hwin
        · rw [hwc]
          refine ⟨fun hnil => he (by rw [eq_nil_of_rev_nil hnil]; rfl), ?_⟩
          intro c hc
          exact hcur c (List.mem_reverse.mp hc)
        · exact ih [] (fun c hc => absurd hc (List.not_mem_nil c)) w hwin
    · rw [if_neg hp] at hw
      refine ih (a :: cur) ?_ w hw
      intro c hc
      rcases List.mem_cons.mp hc with h1 | h2
      · rw [h1]
        exact Bool.eq_false_iff.mpr hp
      · exact hcur c h2

theorem blocks_intercalate (p : Char → Bool) (hp : p ' ' = true) :
    ∀ ws : List Str, (∀ w ∈ ws, w ≠ [] ∧ ∀ c ∈ w, p c = false) →
      blocksGo p [] (List.intercalate [' '] ws) = ws := by
  intro ws
  induction ws with
  | nil =>
    intro _
    rw [intercalate_nil_words]
    rfl
  | cons w ws ih =>
    cases ws with
    | nil =>
      intro h
      obtain ⟨hne, hfree⟩ := h w (List.mem_cons_self w [])
      have hrne : w.reverse ≠ [] := fun hr => hne (eq_nil_of_rev_nil hr)
      have hb := blocksGo_append_free p w [] [] hfree
      simp only [List.append_nil] at hb
      rw [intercalate_single, hb,
        show blocksGo p w.reverse [] =
          (if w.reverse.isEmpty then ([] : List Str)
           else [w.reverse.reverse]) from rfl,
        if_neg (Bool.eq_false_iff.mp (isEmpty_false_of_ne hrne)),
        List.reverse_reverse]
    | cons v ws2 =>
      intro h
      obtain ⟨hne, hfree⟩ := h w (List.mem_cons_self w _)
      have hrne : w.reverse ≠ [] := fun hr => hne (eq_nil_of_rev_nil hr)
      rw [intercalate_cons2,
        show (w ++ [' '] ++ List.intercalate [' '] (v :: ws2) : Str) =
          w ++ ' ' :: List.intercalate [' '] (v :: ws2) from by simp,
        blocksGo_append_free p w [] _ hfree, List.append_nil,
        blocksGo_cons_pos p hp w.reverse _,
        if_neg (Bool.eq_false_iff.mp (isEmpty_false_of_ne hrne)),
        List.reverse_reverse,
        ih (fun u hu => h u (List.mem_cons_of_mem w hu))]

theorem wsWords_nws (t : Str) : wsWords (nws t) = wsWords t :=
  blocks_intercalate isWsC (by decide) (wsWords t)
    (blocksGo_words_free isWsC t []
      (fun c hc => absurd hc (List.not_mem_nil c)))

theorem nws_idem (t : Str) : nws (nws t) = nws t := by
  show List.intercalate [' '] (wsWords (nws t)) = nws t
  rw [wsWords_nws]
  rfl

/-! ### C5: assembly -/

/-- C5: idempotence of `_clean_text` over its own output alphabet.  For
every string made of characters the final character class keeps
(`[a-z0-9 &.'-]`), `_clean_text (_clean_text s) = _clean_text s`.  The
restriction to the kept alphabet is necessary: see the counterexample
`"123_456"`, where removing `_` manufactures fresh word-bounded digit
runs for the second pass. -/
theorem claimC5_idempotence (s : Str) (hk : ∀ c ∈ s, keptC c = true) :
    cleanTextL (cleanTextL s) = cleanTextL s := by
  have h95s : ∀ c ∈ s, c.toNat ≠ 95 :=
    fun c hc => keptC_no_underscore (hk c hc)
  have h1 : cleanTextL s = nws (rx2 s) := cleanTextL_eq_nws_rx2 hk
  have hk2 : ∀ c ∈ rx2 s, keptC c = true := by
    intro c hc
    rcases mem_rx2Go c s false [] hc with h0 | hmem | hsp
    · exact absurd h0 (List.not_mem_nil c)
    · exact hk c hmem
    · rw [hsp]
      decide
  have hk3 : ∀ c ∈ nws (rx2 s), keptC c = true := by
    intro c hc
    rcases mem_nws hc with hmem | hsp
    · exact hk2 c hmem
    · rw [hsp]
      decide
  have h95n : ∀ c ∈ nws (rx2 s), c.toNat ≠ 95 :=
    fun c hc => keptC_no_underscore (hk3 c hc)
  have h2 : cleanTextL (nws (rx2 s)) = nws (rx2 (nws (rx2 s))) :=
    cleanTextL_eq_nws_rx2 hk3
  have hU : invGo false 0 (rx2 s) = true := (rx2Go_inv s h95s).2.2
  have hUn : invGo false 0 (nws (rx2 s)) = true := invGo_nws hU
  have hfix : rx2 (nws (rx2 s)) = nws (rx2 s) :=
    (rx2Go_id_of_inv (nws (rx2 s)) h95n).2.2 hUn
  rw [h1, h2, hfix, nws_idem]

/-- C5 witness: the idempotence theorem applied at a concrete cleaned-
alphabet input containing digits, letters and spaces. -/
theorem claimC5_idempotence_witness :
    (∀ c ∈ ("ab12 starbucks store 99 1234".data), keptC c = true) ∧
    cleanTextL (cleanTextL ("ab12 starbucks store 99 1234".data)) =
      cleanTextL ("ab12 starbucks store 99 1234".data) :=
  ⟨by decide, claimC5_idempotence _ (by decide)⟩

/-- C5 counterexample to unrestricted idempotence: `_clean_text` maps
`"123_456"` to `"123 456"` (the underscore blocks both `\b\d{3,}\b`
boundaries, then becomes a space), but a second application erases the
now word-bounded runs entirely. -/
theorem claimC5_counterexample :
    cleanTextL (cleanTextL ("123_456".data)) ≠
      cleanTextL ("123_456".data) ∧
    cleanTextL ("123_456".data) = "123 456".data ∧
    cleanTextL (cleanTextL ("123_456".data)) = [] := by
  refine ⟨by decide, by decide, by decide⟩

/-! ### C6: the normalizer versus the spec's step list -/

/-- C6 counterexample: on `"a*b#12c ab123"` the spec's literal step list
(delete `#<digits>`; delete every 3+-digit run with no word-boundary
condition; no character-class step) gives `"a*bc ab"`, while the code's
`_clean_text` gives `"a b c ab123"` (substitutions insert a space, the
digit-run regex is word-bounded so `ab123` survives, and `*` is removed
by the character-class regex). -/
theorem claimC6_counterexample :
    specCleanSteps ("a*b#12c ab123".data) ≠
      cleanTextL ("a*b#12c ab123".data) ∧
    specCleanSteps ("a*b#12c ab123".data) = "a*bc ab".data ∧
    cleanTextL ("a*b#12c ab123".data) = "a b c ab123".data := by
  refine ⟨by decide, by decide, by decide⟩

/-- C6: `_clean_text` is deterministic, pure and total (a Lean function),
maps absent and empty input to the empty string, and equals the amended
step list on every input: lowercase; replace `#<digits>` by a space;
replace word-bounded runs of 3+ digits by a space; replace every
character outside `[a-z0-9 &.'-]` by a space; collapse whitespace runs
to a single space and trim. -/
theorem claimC6_clean_text :
    cleanTextO none = [] ∧ cleanTextL [] = [] ∧
    ∀ s : Str, cleanTextL s = specCleanStepsFixed s := by
  refine ⟨rfl, rfl, fun s => ?_⟩
  unfold cleanTextL specCleanStepsFixed
  exact nws_rx4_rx3 (rx2 (rx1 (lowerL s)))

end HS
